import Mathlib

/-!
# TOKENCOUNT: token counting over a list of files

Shallow embedding of `src/main.go` (sequential program, with `formatNumber`) and
`src/token-counter/main.go` (worker-pool program), and the properties proved of them.

Conventions of the embedding:
* Go strings that hold decimal numerals are lists of characters;
* `fmt.Sprintf("%d", n)` is the decimal rendering `Int.repr`;
* `os.Stat`, `filepath.Walk`, `filepath.Join`, `os.ReadFile`, the tokenizer and
  `runtime.NumCPU` are the fields of `World`; an error is its message;
* Go `int` is 64-bit: the running total wraps (`wrap64`);
* the goroutines of the worker pool are a step function indexed by the goroutine that moves.
-/

namespace TokenCount

/-! ## `formatNumber` (src/main.go) -/

/-- Characters of `fmt.Sprintf("%d", number)`. -/
def sprintfD (number : Int) : List Char := (Int.repr number).data

/-- One iteration of the loop of `formatNumber`, for loop index `i`. -/
def formatStep (numberString : List Char) (stringLength : Nat)
    (formatted : List Char) (i : Nat) : List Char :=
  let digit := numberString.getD (stringLength - 1 - i) ' '
  let formatted := digit :: formatted
  if (i + 1) % 3 = 0 ∧ i + 1 ≠ stringLength then ' ' :: formatted else formatted

/-- The loop of `formatNumber`, run on the numeral string. -/
def formatString (numberString : List Char) : List Char :=
  (List.range numberString.length).foldl (formatStep numberString numberString.length) []

/-- The function `formatNumber(number int) string`. -/
def formatNumber (number : Int) : String :=
  String.mk (formatString (sprintfD number))

/-- Closed form of the loop: a space goes in front of every suffix whose length is a
positive multiple of three, except in front of the whole string. -/
def spaced : List Char → List Char
  | [] => []
  | c :: t => c :: (if t.length % 3 = 0 ∧ t ≠ [] then ' ' :: spaced t else spaced t)

/-! ## Output lines -/

/-- One call of `logger.Printf` or `fmt.Printf`. The logger's timestamp prefix is not
part of the line. -/
inductive Line
  | errStat (arg err : String)
  | errAccess (path err : String)
  | skipDir (arg : String)
  | errRead (filename err : String)
  | debugContent (filename content : String)
  | errGet (err : String)
  | errEncode (err : String)
  | fileTks (viaLogger : Bool) (filename : String) (n : Nat)
  | fileTokenCount (viaLogger : Bool) (filename : String) (n : Nat)
  | separator
  | total (formatted : String)
  deriving DecidableEq, Repr

/-- The format string of each call, instantiated. -/
def Line.text : Line → String
  | .errStat arg err => "Error stating file " ++ arg ++ ": " ++ err ++ "\n"
  | .errAccess path err => "Error accessing path " ++ path ++ ": " ++ err ++ "\n"
  | .skipDir arg => "Skipping directory " ++ arg ++ " (use --recursive to process)\n"
  | .errRead filename err => "Error reading file " ++ filename ++ ": " ++ err ++ "\n"
  | .debugContent filename content => "File: " ++ filename ++ ", Content: " ++ content ++ "\n"
  | .errGet err => "Error getting encoding: " ++ err ++ "\n"
  | .errEncode err => "Error encoding: " ++ err ++ "\n"
  | .fileTks _ filename n => "File: " ++ filename ++ " (" ++ String.mk (sprintfD n) ++ " tks)\n"
  | .fileTokenCount _ filename n =>
      "File: " ++ filename ++ ", Token count: " ++ String.mk (sprintfD n) ++ "\n"
  | .separator => "__\n"
  | .total formatted => "Total token count: " ++ formatted ++ " tks\n"

/-- Whether the line is written with `fmt.Printf`, that is always to standard output. -/
def Line.viaFmt : Line → Bool
  | .fileTks viaLogger _ _ => !viaLogger
  | .fileTokenCount viaLogger _ _ => !viaLogger
  | .separator => true
  | .total _ => true
  | _ => false

/-! ## The world outside the program -/

/-- Directory entries in the order `filepath.Walk` visits them: `file` is an entry whose
`lstat` succeeds and is not a directory, `bad` an entry whose `lstat` fails with `err`,
`dir` a directory with its own entries (`readErr` is the error of listing it, if any);
`rest` is the following entries of the same directory. -/
inductive Entries
  | nil
  | file (name : String) (rest : Entries)
  | bad (name : String) (err : String) (rest : Entries)
  | dir (name : String) (readErr : Option String) (children : Entries) (rest : Entries)
  deriving Repr

/-- What `filepath.Walk` finds at its root: `os.Lstat` of the root fails, or gives a
non-directory, or gives a directory with its listing. -/
inductive WalkRoot
  | bad (err : String)
  | file
  | dir (readErr : Option String) (children : Entries)
  deriving Repr

/-- Result of `os.Stat(arg)`: an error, a non-directory, or a directory together with what
a walk from it finds. -/
inductive StatResult
  | error (err : String)
  | file
  | dir (root : WalkRoot)
  deriving Repr

/-- The calls the programs make to the operating system and to the tokenizer library:
`os.Stat`, `filepath.Join`, `os.ReadFile`, `tiktoken.Get("cl100k_base")` (whose result, on
success, is the `Encode` method reduced to `len(tokens)`), and `runtime.NumCPU()`. -/
structure World where
  stat : String → StatResult
  join : String → String → String
  readFile : String → Except String String
  getEncoding : Except String (String → Except String Nat)
  numCPU : Int

/-- The flag variables `debug`, `logFile`, `threads`, `recursive`. -/
structure Config where
  debug : Bool
  logFile : String
  threads : Int
  recursive : Bool

/-- Go `int` arithmetic: 64-bit two's complement. -/
def wrap64 (x : Int) : Int := (x + 2 ^ 63) % 2 ^ 64 - 2 ^ 63

/-- The statement `if threads <= 0 { threads = runtime.NumCPU() }`. -/
def normThreads (numCPU threads : Int) : Int :=
  if threads ≤ 0 then numCPU else threads

/-! ## File discovery (identical in both programs) -/

/-- The walk below the root with the callback of the program: result is the paths
appended to `files`, the lines logged, and whether the walk was stopped by an error. -/
def walkEntries (join : String → String → String) (path : String) :
    Entries → List String × List Line × Bool
  | .nil => ([], [], false)
  | .file name rest =>
      let r := walkEntries join path rest
      (join path name :: r.1, r.2.1, r.2.2)
  | .bad name err _ => ([], [Line.errAccess (join path name) err], true)
  | .dir name (some err) _ _ => ([], [Line.errAccess (join path name) err], true)
  | .dir name none children rest =>
      let r1 := walkEntries join (join path name) children
      if r1.2.2 then r1
      else
        let r2 := walkEntries join path rest
        (r1.1 ++ r2.1, r1.2.1 ++ r2.2.1, r2.2.2)

/-- Model of `filepath.Walk(arg, callback)`. -/
def walk (join : String → String → String) (arg : String) :
    WalkRoot → List String × List Line × Bool
  | .bad err => ([], [Line.errAccess arg err], true)
  | .file => ([arg], [], false)
  | .dir (some err) _ => ([], [Line.errAccess arg err], true)
  | .dir none children => walkEntries join arg children

/-- One iteration of `for _, arg := range args`. -/
def discoverArg (w : World) (recursive : Bool) (arg : String) : List String × List Line :=
  match w.stat arg with
  | .error err => ([], [Line.errStat arg err])
  | .file => ([arg], [])
  | .dir root =>
      if recursive then
        let r := walk w.join arg root
        (r.1, r.2.1)
      else ([], [Line.skipDir arg])

/-- The effect of one iteration on the pair (`files`, lines logged). -/
def discoverStep (w : World) (recursive : Bool) (acc : List String × List Line)
    (arg : String) : List String × List Line :=
  let r := discoverArg w recursive arg
  (acc.1 ++ r.1, acc.2 ++ r.2)

/-- The statement `var files []string` and then the loop over `args`. -/
def discover (w : World) (recursive : Bool) (args : List String) : List String × List Line :=
  args.foldl (discoverStep w recursive) ([], [])

/-! ## `src/main.go`: sequential processing -/

namespace Main

/-- Body of `for _, filename := range files`: the lines written and, when the
`totalTokens += len(tokens)` statement is reached, `len(tokens)`. -/
def processFile (w : World) (cfg : Config) (filename : String) : List Line × Option Nat :=
  match w.readFile filename with
  | .error err => ([Line.errRead filename err], none)
  | .ok content =>
      let dbg := if cfg.debug then [Line.debugContent filename content] else []
      match w.getEncoding with
      | .error err => (dbg ++ [Line.errGet err], none)
      | .ok tokenizer =>
          match tokenizer content with
          | .error err => (dbg ++ [Line.errEncode err], none)
          | .ok n => (dbg ++ [Line.fileTks (cfg.logFile != "") filename n], some n)

/-- One iteration of the processing loop on the pair (lines written, `totalTokens`). -/
def loopBody (w : World) (cfg : Config) (acc : List Line × Int) (filename : String) :
    List Line × Int :=
  let r := processFile w cfg filename
  (acc.1 ++ r.1,
    match r.2 with
    | some n => wrap64 (acc.2 + (n : Int))
    | none => acc.2)

/-- The statement `totalTokens := 0` and then the loop over `files`. -/
def processLoop (w : World) (cfg : Config) (files : List String) : List Line × Int :=
  files.foldl (loopBody w cfg) ([], 0)

/-- State at the end of `Run` (from the `threads` normalisation on): the value of
`threads`, and every line written in order. -/
structure Result where
  threads : Int
  out : List Line

/-- The function `Run` of `src/main.go`, from the `threads` normalisation to the last
`fmt.Printf`. -/
def run (w : World) (cfg : Config) (args : List String) : Result :=
  let threads := normThreads w.numCPU cfg.threads
  let d := discover w cfg.recursive args
  let p := processLoop w cfg d.1
  { threads := threads
    out := d.2 ++ p.1 ++ [Line.separator, Line.total (formatNumber p.2)] }

end Main

/-! ## `src/token-counter/main.go`: worker pool -/

namespace Pool

/-- Body of `for filename := range fileChan`: the lines to write, in order. -/
def processFile (w : World) (cfg : Config) (filename : String) : List Line :=
  match w.readFile filename with
  | .error err => [Line.errRead filename err]
  | .ok content =>
      let dbg := if cfg.debug then [Line.debugContent filename content] else []
      match w.getEncoding with
      | .error err => dbg ++ [Line.errGet err]
      | .ok tokenizer =>
          match tokenizer content with
          | .error err => dbg ++ [Line.errEncode err]
          | .ok n => dbg ++ [Line.fileTokenCount (cfg.logFile != "") filename n]

/-- A goroutine: at the `range fileChan` receive when `pending = []`, otherwise about to
write the next of the lines of the file it holds; or returned (`wg.Done()` has run). -/
inductive Worker
  | running (pending : List Line)
  | exited
  deriving DecidableEq, Repr

/-- State after `close(fileChan)`. `received` is a history variable recording each
receive as (goroutine index, path). -/
structure State where
  queue : List String
  workers : List Worker
  out : List Line
  received : List (Nat × String)
  deriving DecidableEq, Repr

/-- State once the channel is filled and closed and `threads` goroutines are launched. -/
def initFiles (files : List String) (threads : Int) (log : List Line) : State :=
  { queue := files
    workers := List.replicate threads.toNat (Worker.running [])
    out := log
    received := [] }

/-- The function `Run` of `src/token-counter/main.go`, from the `threads` normalisation to
the launch of the goroutines. -/
def init (w : World) (cfg : Config) (args : List String) : State :=
  let threads := normThreads w.numCPU cfg.threads
  let d := discover w cfg.recursive args
  initFiles d.1 threads d.2

/-- One atomic action of goroutine `i`: write a line, receive from the channel, or
return because the closed channel is empty. `none` when `i` cannot move. -/
def step (w : World) (cfg : Config) (s : State) (i : Nat) : Option State :=
  match s.workers[i]? with
  | none => none
  | some Worker.exited => none
  | some (Worker.running (l :: rest)) =>
      some { s with workers := s.workers.set i (Worker.running rest), out := s.out ++ [l] }
  | some (Worker.running []) =>
      match s.queue with
      | [] => some { s with workers := s.workers.set i Worker.exited }
      | f :: q =>
          some { s with
            queue := q
            workers := s.workers.set i (Worker.running (processFile w cfg f))
            received := s.received ++ [(i, f)] }

/-- Every goroutine has returned: `wg.Wait()` returns and so does `Run`. -/
def done (s : State) : Bool :=
  s.workers.all (fun wk => wk == Worker.exited)

/-- Runs the goroutines following a schedule; entries that cannot move are skipped. -/
def runSchedule (w : World) (cfg : Config) (s : State) (schedule : List Nat) : State :=
  schedule.foldl (fun st i => (step w cfg st i).getD st) s

/-- The relation `Reach w cfg n s t`: some interleaving of `n` actions leads from `s` to
`t`. -/
inductive Reach (w : World) (cfg : Config) : Nat → State → State → Prop
  | refl (s : State) : Reach w cfg 0 s s
  | tail {n : Nat} {s t u : State} (i : Nat) :
      Reach w cfg n s t → step w cfg t i = some u → Reach w cfg (n + 1) s u

/-- Index of the first goroutine that has not returned. -/
def firstRunning : List Worker → Option Nat
  | [] => none
  | Worker.exited :: ws => (firstRunning ws).map (fun i => i + 1)
  | Worker.running _ :: _ => some 0

/-- Runs the pool with the schedule that always moves the first goroutine that has not
returned, for at most `fuel` actions. -/
def exec (w : World) (cfg : Config) : Nat → State → State
  | 0, s => s
  | fuel + 1, s =>
      match firstRunning s.workers with
      | none => s
      | some i => exec w cfg fuel ((step w cfg s i).getD s)

/-- Lines a goroutine still has to write for the file it holds. -/
def Worker.pending : Worker → List Line
  | Worker.running p => p
  | Worker.exited => []

/-- Weight of a goroutine in the termination measure. -/
def Worker.weight : Worker → Nat
  | Worker.running p => p.length + 1
  | Worker.exited => 0

/-- Termination measure: every action of every goroutine decreases it. -/
def measure (s : State) : Nat :=
  3 * s.queue.length + (s.workers.map Worker.weight).sum

end Pool

/-! ## Vocabulary of the specification -/

/-- The token count of a file whose read, tokenizer initialisation and encoding all
succeed; `none` when one of them fails. -/
def tokenCount (w : World) (filename : String) : Option Nat :=
  match w.readFile filename with
  | .error _ => none
  | .ok content =>
      match w.getEncoding with
      | .error _ => none
      | .ok tokenizer =>
          match tokenizer content with
          | .error _ => none
          | .ok n => some n

/-- Sum of the token counts of the files of the list that are read and tokenized
successfully. -/
def successSum (w : World) (files : List String) : Int :=
  (((files.filterMap (tokenCount w)).sum : Nat) : Int)

/-- Per-file success line, in the format of either program. -/
def Line.isSuccess : Line → Bool
  | .fileTks _ _ _ => true
  | .fileTokenCount _ _ _ => true
  | _ => false

/-- Error line of the processing loop (read, tokenizer initialisation or encoding). -/
def Line.isProcessError : Line → Bool
  | .errRead _ _ => true
  | .errGet _ => true
  | .errEncode _ => true
  | _ => false

/-- Text written through `fmt.Printf`, that is to standard output whatever `--log-file`
says. -/
def fmtOutput (out : List Line) : String :=
  String.join ((out.filter Line.viaFmt).map Line.text)

/-- A small world used to evaluate the definitions on concrete inputs. -/
def demoWorld : World where
  stat := fun p =>
    if p = "d" then
      StatResult.dir (WalkRoot.dir none
        (Entries.file "x" (Entries.dir "sub" none (Entries.file "y" Entries.nil) Entries.nil)))
    else if p = "missing" then StatResult.error "no such file or directory"
    else StatResult.file
  join := fun a b => a ++ "/" ++ b
  readFile := fun p =>
    if p = "a" then Except.ok "one two"
    else if p = "b" then Except.ok "three"
    else Except.error "permission denied"
  getEncoding := Except.ok (fun content => Except.ok content.length)
  numCPU := 4

/-- Configuration with every flag at its default. -/
def defaultConfig : Config where
  debug := false
  logFile := ""
  threads := 0
  recursive := false

/-- No entry below fails `lstat` and no directory below fails to be listed: the walk meets
no access error. -/
def Entries.noError : Entries → Bool
  | .nil => true
  | .file _ rest => rest.noError
  | .bad _ _ _ => false
  | .dir _ (some _) _ _ => false
  | .dir _ none children rest => children.noError && rest.noError

/-- Number of non-directory entries at any depth. -/
def Entries.fileCount : Entries → Nat
  | .nil => 0
  | .file _ rest => rest.fileCount + 1
  | .bad _ _ rest => rest.fileCount
  | .dir _ _ children rest => children.fileCount + rest.fileCount

/-- The entry reached by descending along `route` (a non-empty list of names) is a
non-directory entry. -/
inductive Entries.IsFileAt : Entries → List String → Prop
  | here (name : String) (rest : Entries) : IsFileAt (.file name rest) [name]
  | afterFile (name : String) {rest : Entries} {route : List String} :
      IsFileAt rest route → IsFileAt (.file name rest) route
  | afterBad (name err : String) {rest : Entries} {route : List String} :
      IsFileAt rest route → IsFileAt (.bad name err rest) route
  | afterDir (name : String) (readErr : Option String) (children : Entries)
      {rest : Entries} {route : List String} :
      IsFileAt rest route → IsFileAt (.dir name readErr children rest) route
  | inDir (name : String) (readErr : Option String) {children : Entries} (rest : Entries)
      {route : List String} :
      IsFileAt children route → IsFileAt (.dir name readErr children rest) (name :: route)

/-- Invariant of the pool started on `files` with `n` goroutines after `log` was written:
receives follow the queue order, only goroutines of the pool receive, no goroutine returns
while the queue is non-empty, and no line is lost or invented. -/
def Pool.Inv (w : World) (cfg : Config) (files : List String) (log : List Line) (n : Nat)
    (s : Pool.State) : Prop :=
  s.received.map Prod.snd ++ s.queue = files ∧
  (∀ r ∈ s.received, r.1 < n) ∧
  s.workers.length = n ∧
  (Pool.Worker.exited ∈ s.workers → s.queue = []) ∧
  (s.out ++ s.workers.flatMap Pool.Worker.pending ++
      s.queue.flatMap (Pool.processFile w cfg)).Perm
    (log ++ files.flatMap (Pool.processFile w cfg))

/-- The separator line or the total line. -/
def Line.isFinal : Line → Bool
  | .separator => true
  | .total _ => true
  | _ => false

/-- Paths that goroutine `i` has received so far. -/
def Pool.receivedBy (s : Pool.State) (i : Nat) : List String :=
  (s.received.filter (fun r => r.1 == i)).map Prod.snd

/-- Whether the file is read and tokenized successfully. -/
def succeeds (w : World) (filename : String) : Bool :=
  (tokenCount w filename).isSome

/-- Names of the entries of one directory. -/
def Entries.names : Entries → List String
  | .nil => []
  | .file name rest => name :: rest.names
  | .bad name _ rest => name :: rest.names
  | .dir name _ _ rest => name :: rest.names

/-- In every directory of the tree the entries have pairwise distinct names. -/
def Entries.distinctNames : Entries → Bool
  | .nil => true
  | .file name rest => decide (name ∉ rest.names) && rest.distinctNames
  | .bad name _ rest => decide (name ∉ rest.names) && rest.distinctNames
  | .dir name _ children rest =>
      decide (name ∉ rest.names) && children.distinctNames && rest.distinctNames

/-- Routes (lists of names from the top directory down) of the non-directory entries, in
walk order. -/
def Entries.fileRoutes : Entries → List (List String)
  | .nil => []
  | .file name rest => [name] :: rest.fileRoutes
  | .bad _ _ rest => rest.fileRoutes
  | .dir name _ children rest => children.fileRoutes.map (fun r => name :: r) ++ rest.fileRoutes

/-! ## Properties of `formatNumber` -/

theorem drop_pred_eq (s : List Char) (k : Nat) (hk : k < s.length) :
    s.drop (s.length - 1 - k) = s.getD (s.length - 1 - k) ' ' :: s.drop (s.length - k) := by
  have h1 : s.length - 1 - k < s.length := by omega
  rw [List.drop_eq_getElem_cons h1]
  have h2 : s.length - 1 - k + 1 = s.length - k := by omega
  rw [h2, List.getD_eq_getElem _ _ h1]

theorem foldl_formatStep (s : List Char) (k : Nat) (hk : k ≤ s.length) :
    (List.range k).foldl (formatStep s s.length) [] =
      if k % 3 = 0 ∧ k ≠ s.length ∧ k ≠ 0 then ' ' :: spaced (s.drop (s.length - k))
      else spaced (s.drop (s.length - k)) := by
  induction k with
  | zero => simp [spaced]
  | succ k ih =>
    have hk' : k < s.length := hk
    rw [List.range_succ, List.foldl_append, ih (Nat.le_of_lt hk')]
    have hd : s.drop (s.length - (k + 1)) = s.getD (s.length - 1 - k) ' ' :: s.drop (s.length - k) := by
      have h := drop_pred_eq s k hk'
      have e : s.length - 1 - k = s.length - (k + 1) := by omega
      rw [e] at h ⊢
      exact h
    have hlen : (s.drop (s.length - k)).length = k := by
      rw [List.length_drop]; omega
    have hne : (s.drop (s.length - k)) ≠ [] ↔ k ≠ 0 := by
      rw [← List.length_pos, hlen]; omega
    have hkl : k ≠ s.length := Nat.ne_of_lt hk'
    simp only [List.foldl_cons, List.foldl_nil, formatStep, hd, spaced, hlen, hne]
    by_cases h3 : k % 3 = 0 <;> by_cases h0 : k = 0 <;> by_cases h4 : (k + 1) % 3 = 0 <;>
      by_cases h5 : k + 1 = s.length <;> simp [h3, h0, h4, h5, hkl]

theorem formatString_eq_spaced (s : List Char) : formatString s = spaced s := by
  unfold formatString
  rw [foldl_formatStep s s.length (Nat.le_refl _)]
  simp

theorem toDigitsCore_eq_digits (fuel : Nat) : ∀ (n : Nat) (ds : List Char), 0 < n → n < fuel →
    Nat.toDigitsCore 10 fuel n ds = ((Nat.digits 10 n).reverse.map Nat.digitChar) ++ ds := by
  induction fuel with
  | zero => intro n ds _ h; omega
  | succ fuel ih =>
    intro n ds hn hf
    rw [Nat.digits_def' (by norm_num) hn]
    simp only [Nat.toDigitsCore]
    by_cases hq : n / 10 = 0
    · simp [hq]
    · have hq' : 0 < n / 10 := Nat.pos_of_ne_zero hq
      have hlt : n / 10 < fuel := by omega
      simp [hq, ih (n / 10) _ hq' hlt]

theorem repr_data_pos (n : Nat) (hn : 0 < n) :
    (Nat.repr n).data = (Nat.digits 10 n).reverse.map Nat.digitChar := by
  simp [Nat.repr, Nat.toDigits, List.asString, toDigitsCore_eq_digits (n + 1) n [] hn (by omega)]

theorem sprintfD_pos (n : Nat) (hn : 0 < n) :
    sprintfD (n : Int) = (Nat.digits 10 n).reverse.map Nat.digitChar := by
  show (Int.repr (Int.ofNat n)).data = _
  simp only [Int.repr]
  exact repr_data_pos n hn

theorem sprintfD_zero : sprintfD 0 = ['0'] := by decide

theorem sprintfD_neg (n : Nat) (hn : 0 < n) :
    sprintfD (-(n : Int)) = '-' :: (Nat.digits 10 n).reverse.map Nat.digitChar := by
  obtain ⟨m, rfl⟩ : ∃ m, n = m + 1 := ⟨n - 1, by omega⟩
  show (Int.repr (Int.negSucc m)).data = _
  simp only [Int.repr]
  rw [← repr_data_pos (m + 1) hn]
  rfl

theorem digitChar_isDigit (d : Nat) (hd : d < 10) : (Nat.digitChar d).isDigit = true := by
  interval_cases d <;> decide

theorem length_flatten_threes (rest : List (List Char)) (h : ∀ g ∈ rest, g.length = 3) :
    rest.flatten.length = 3 * rest.length := by
  induction rest with
  | nil => simp
  | cons g gs ih =>
    have hg := h g (List.mem_cons_self _ _)
    have := ih (fun x hx => h x (List.mem_cons_of_mem _ hx))
    simp [hg, this]; omega

theorem spaced_groups : ∀ (t : List Char), t ≠ [] →
    ∃ (lead : List Char) (rest : List (List Char)),
      spaced t = [' '].intercalate (lead :: rest) ∧ (lead :: rest).flatten = t ∧
      1 ≤ lead.length ∧ lead.length ≤ 3 ∧ ∀ g ∈ rest, g.length = 3 := by
  intro t
  induction t with
  | nil => intro h; exact absurd rfl h
  | cons c t ih =>
    intro _
    by_cases ht : t = []
    · subst ht
      exact ⟨[c], [], by simp [spaced, List.intercalate], by simp, by simp, by simp, by simp⟩
    · obtain ⟨lead, rest, hsp, hjoin, h1, h3, hrest⟩ := ih ht
      have hlen : t.length = lead.length + 3 * rest.length := by
        rw [← hjoin, List.flatten_cons, List.length_append, length_flatten_threes rest hrest]
      by_cases hm : t.length % 3 = 0
      · have hl3 : lead.length = 3 := by omega
        refine ⟨[c], lead :: rest, ?_, by simp [← hjoin], by simp, by simp, ?_⟩
        · simp [spaced, hm, ht, hsp, List.intercalate, List.intersperse]
        · intro g hg
          rcases List.mem_cons.1 hg with rfl | hg
          · exact hl3
          · exact hrest g hg
      · have hl2 : lead.length ≤ 2 := by omega
        refine ⟨c :: lead, rest, ?_, by simp [← hjoin], by simp, by simp; omega, hrest⟩
        simp only [spaced, hm, hsp]
        cases rest <;> simp [List.intercalate, List.intersperse]

theorem filter_spaced (t : List Char) :
    (spaced t).filter (fun c => c != ' ') = t.filter (fun c => c != ' ') := by
  induction t with
  | nil => rfl
  | cons c t ih =>
    simp only [spaced]
    split <;> simp [List.filter_cons, ih]

theorem digitChar_ne_space (d : Nat) (hd : d < 10) : (Nat.digitChar d != ' ') = true := by
  interval_cases d <;> decide

theorem digits_map_filter (n : Nat) :
    ((Nat.digits 10 n).reverse.map Nat.digitChar).filter (fun c => c != ' ') =
      (Nat.digits 10 n).reverse.map Nat.digitChar := by
  rw [List.filter_eq_self]
  intro c hc
  obtain ⟨d, hd, rfl⟩ := List.mem_map.1 hc
  exact digitChar_ne_space d (Nat.digits_lt_base (by norm_num) (List.mem_reverse.1 hd))

theorem sprintfD_filter (n : Int) :
    (sprintfD n).filter (fun c => c != ' ') = sprintfD n := by
  rcases Int.lt_trichotomy n 0 with h | h | h
  · obtain ⟨m, rfl⟩ : ∃ m : Nat, n = -(m : Int) := ⟨n.natAbs, by omega⟩
    have hm : 0 < m := by omega
    rw [sprintfD_neg m hm, List.filter_cons, digits_map_filter]
    rfl
  · subst h; decide
  · obtain ⟨m, rfl⟩ : ∃ m : Nat, n = (m : Int) := ⟨n.toNat, by omega⟩
    have hm : 0 < m := by omega
    rw [sprintfD_pos m hm, digits_map_filter]

/-- C3: for every non-negative `n`, `formatNumber n` is the decimal digits of `n` cut into
clusters, the clusters joined by exactly one space with no space in front: the leading
cluster has 1 to 3 digits and every other cluster exactly 3, so the clusters are counted
from the least significant digit. The decimal digits are those of `Nat.digits 10`, most
significant first. And `formatNumber` maps 1234567, 999 and 1000 to `1 234 567`, `999`
and `1 000`. -/
theorem formatNumber_groups_of_three (n : Int) (hn : 0 ≤ n) :
    (∃ (lead : List Char) (rest : List (List Char)),
      (formatNumber n).data = [' '].intercalate (lead :: rest) ∧
      (lead :: rest).flatten = sprintfD n ∧
      sprintfD n = (if n = 0 then ['0'] else (Nat.digits 10 n.toNat).reverse.map Nat.digitChar) ∧
      (∀ c ∈ sprintfD n, c.isDigit = true) ∧
      1 ≤ lead.length ∧ lead.length ≤ 3 ∧ ∀ g ∈ rest, g.length = 3) ∧
    formatNumber 1234567 = "1 234 567" ∧ formatNumber 999 = "999" ∧
    formatNumber 1000 = "1 000" := by
  refine ⟨?_, by decide, by decide, by decide⟩
  have hdig : sprintfD n =
      (if n = 0 then ['0'] else (Nat.digits 10 n.toNat).reverse.map Nat.digitChar) := by
    by_cases h0 : n = 0
    · subst h0; decide
    · obtain ⟨m, rfl⟩ : ∃ m : Nat, n = (m : Int) := ⟨n.toNat, by omega⟩
      have hm : 0 < m := by omega
      simp [h0, sprintfD_pos m hm]
  have hne : sprintfD n ≠ [] := by
    rw [hdig]
    split
    · simp
    · rename_i h0
      have : n.toNat ≠ 0 := by omega
      simp [Nat.digits_ne_nil_iff_ne_zero, this]
  obtain ⟨lead, rest, hsp, hjoin, h1, h3, hrest⟩ := spaced_groups (sprintfD n) hne
  refine ⟨lead, rest, ?_, hjoin, hdig, ?_, h1, h3, hrest⟩
  · show formatString (sprintfD n) = _
    rw [formatString_eq_spaced, hsp]
  · intro c hc
    rw [hdig] at hc
    split at hc
    · simp at hc; subst hc; decide
    · obtain ⟨d, hd, rfl⟩ := List.mem_map.1 hc
      exact digitChar_isDigit d (Nat.digits_lt_base (by norm_num) (List.mem_reverse.1 hd))

theorem formatNumber_groups_of_three_witness :
    (0 : Int) ≤ 1234567 ∧ formatNumber 1234567 = "1 234 567" :=
  ⟨by decide, (formatNumber_groups_of_three 1234567 (by decide)).2.1⟩

/-- C10: the minus sign takes a digit position in `formatNumber`: for every negative `n`
whose absolute value has a positive multiple of 3 decimal digits the result starts with
the sign followed by a space, as in `formatNumber (-100) = "- 100"`; and for every integer
`n` deleting the spaces of `formatNumber n` gives the decimal rendering of `n`. -/
theorem formatNumber_sign_is_a_position :
    (∀ n : Int, n < 0 → 0 < (Nat.digits 10 n.natAbs).length →
        (Nat.digits 10 n.natAbs).length % 3 = 0 →
        ∃ t, (formatNumber n).data = '-' :: ' ' :: t) ∧
    formatNumber (-100) = "- 100" ∧
    (∀ n : Int, (formatNumber n).data.filter (fun c => c != ' ') = sprintfD n) := by
  refine ⟨?_, by decide, ?_⟩
  · intro n hn hpos hmod
    obtain ⟨m, rfl⟩ : ∃ m : Nat, n = -(m : Int) := ⟨n.natAbs, by omega⟩
    have hm : 0 < m := by omega
    have hnat : (-(m : Int)).natAbs = m := by simp
    rw [hnat] at hpos hmod
    refine ⟨spaced ((Nat.digits 10 m).reverse.map Nat.digitChar), ?_⟩
    show formatString (sprintfD (-(m : Int))) = _
    rw [formatString_eq_spaced, sprintfD_neg m hm]
    have hl : ((Nat.digits 10 m).reverse.map Nat.digitChar).length = (Nat.digits 10 m).length := by
      simp
    have hne : (Nat.digits 10 m).reverse.map Nat.digitChar ≠ [] := by
      rw [← List.length_pos, hl]; exact hpos
    have hd : Nat.digits 10 m ≠ [] := by
      rw [← List.length_pos]; exact hpos
    simp [spaced, hmod, hd]
  · intro n
    show (formatString (sprintfD n)).filter _ = _
    rw [formatString_eq_spaced, filter_spaced, sprintfD_filter]

/-! ## The sequential loop of `src/main.go` -/

theorem wrap64_add_wrap64 (a b : Int) : wrap64 (wrap64 a + b) = wrap64 (a + b) := by
  unfold wrap64
  omega

theorem wrap64_of_fits (a : Int) (h0 : 0 ≤ a) (h1 : a < 2 ^ 63) : wrap64 a = a := by
  unfold wrap64
  omega

theorem processFile_snd (w : World) (cfg : Config) (f : String) :
    (Main.processFile w cfg f).2 = tokenCount w f := by
  unfold Main.processFile tokenCount
  rcases h1 : w.readFile f with e | c
  · rfl
  · rcases h2 : w.getEncoding with e | tk
    · rfl
    · rcases h3 : tk c with e | n <;> simp [h3]

theorem successSum_nil (w : World) : successSum w [] = 0 := by
  simp [successSum]

theorem successSum_cons (w : World) (f : String) (fs : List String) :
    successSum w (f :: fs) =
      (match tokenCount w f with
        | some n => (n : Int)
        | none => 0) + successSum w fs := by
  unfold successSum
  cases h : tokenCount w f <;> simp [List.filterMap_cons, h]

theorem successSum_nonneg (w : World) (fs : List String) : 0 ≤ successSum w fs := by
  unfold successSum
  exact Int.ofNat_nonneg _

theorem foldl_processLoop (w : World) (cfg : Config) (files : List String) :
    ∀ (o : List Line) (T : Int),
      files.foldl (Main.loopBody w cfg) (o, wrap64 T) =
        (o ++ files.flatMap (fun f => (Main.processFile w cfg f).1),
          wrap64 (T + successSum w files)) := by
  induction files with
  | nil => intro o T; simp [successSum_nil]
  | cons f fs ih =>
    intro o T
    rw [List.foldl_cons, successSum_cons]
    cases h : tokenCount w f with
    | none =>
      have hb : Main.loopBody w cfg (o, wrap64 T) f =
          (o ++ (Main.processFile w cfg f).1, wrap64 T) := by
        simp [Main.loopBody, processFile_snd, h]
      rw [hb, ih]
      simp [List.flatMap_cons, List.append_assoc]
    | some n =>
      have hb : Main.loopBody w cfg (o, wrap64 T) f =
          (o ++ (Main.processFile w cfg f).1, wrap64 (T + (n : Int))) := by
        simp [Main.loopBody, processFile_snd, h, wrap64_add_wrap64]
      rw [hb, ih]
      simp [List.flatMap_cons, List.append_assoc, Int.add_assoc]

theorem processLoop_eq (w : World) (cfg : Config) (files : List String) :
    Main.processLoop w cfg files =
      (files.flatMap (fun f => (Main.processFile w cfg f).1), wrap64 (successSum w files)) := by
  have h := foldl_processLoop w cfg files [] 0
  have h0 : wrap64 0 = 0 := by decide
  rw [h0] at h
  unfold Main.processLoop
  rw [h]
  simp

theorem successSum_perm (w : World) {fs gs : List String} (h : fs.Perm gs) :
    successSum w fs = successSum w gs := by
  unfold successSum
  rw [(h.filterMap (tokenCount w)).sum_eq]


theorem foldl_discoverStep (w : World) (r : Bool) (args : List String) :
    ∀ (acc : List String × List Line),
      args.foldl (discoverStep w r) acc =
        (acc.1 ++ args.flatMap (fun a => (discoverArg w r a).1),
          acc.2 ++ args.flatMap (fun a => (discoverArg w r a).2)) := by
  induction args with
  | nil => intro acc; simp
  | cons a as ih =>
    intro acc
    rw [List.foldl_cons, ih]
    simp [discoverStep, List.flatMap_cons, List.append_assoc]

theorem discover_eq (w : World) (r : Bool) (args : List String) :
    discover w r args =
      (args.flatMap (fun a => (discoverArg w r a).1),
        args.flatMap (fun a => (discoverArg w r a).2)) := by
  unfold discover
  rw [foldl_discoverStep]
  simp

theorem run_out (w : World) (cfg : Config) (args : List String) :
    (Main.run w cfg args).out =
      (discover w cfg.recursive args).2 ++
        (discover w cfg.recursive args).1.flatMap (fun f => (Main.processFile w cfg f).1) ++
        [Line.separator,
          Line.total (formatNumber (wrap64 (successSum w (discover w cfg.recursive args).1)))] := by
  simp [Main.run, processLoop_eq]

/-- C1: the total that `src/main.go` passes to `formatNumber` is the sum of the token
counts of exactly the files whose read and tokenization succeed (computed in Go `int`, so
equal to the sum whenever the sum is below `2^63`); a failing file adds nothing; the total
does not depend on the order of the list. -/
theorem total_is_sum_of_successes (w : World) (cfg : Config) (files : List String) :
    (Main.processLoop w cfg files).2 = wrap64 (successSum w files) ∧
    (successSum w files < 2 ^ 63 → (Main.processLoop w cfg files).2 = successSum w files) ∧
    (∀ pre f post, files = pre ++ f :: post → tokenCount w f = none →
      (Main.processLoop w cfg files).2 = (Main.processLoop w cfg (pre ++ post)).2) ∧
    (∀ files2 : List String, files2.Perm files →
      (Main.processLoop w cfg files2).2 = (Main.processLoop w cfg files).2) ∧
    (∀ args, (discover w cfg.recursive args).1 = files →
      (Main.run w cfg args).out.getLast? =
        some (Line.total (formatNumber (Main.processLoop w cfg files).2))) := by
  refine ⟨by rw [processLoop_eq], ?_, ?_, ?_, ?_⟩
  · intro hfit
    rw [processLoop_eq]
    exact wrap64_of_fits _ (successSum_nonneg w files) hfit
  · intro pre f post hfiles hfail
    subst hfiles
    rw [processLoop_eq, processLoop_eq]
    simp [successSum, List.filterMap_append, List.filterMap_cons, hfail]
  · intro files2 hperm
    rw [processLoop_eq, processLoop_eq, successSum_perm w hperm]
  · intro args h1
    rw [run_out, h1, processLoop_eq]
    simp

theorem total_is_sum_of_successes_witness :
    successSum demoWorld ["a", "zz", "b"] < 2 ^ 63 ∧
      (Main.processLoop demoWorld defaultConfig ["a", "zz", "b"]).2 =
        successSum demoWorld ["a", "zz", "b"] ∧
      successSum demoWorld ["a", "zz", "b"] = 12 :=
  ⟨by decide,
    (total_is_sum_of_successes demoWorld defaultConfig ["a", "zz", "b"]).2.1 (by decide),
    by decide⟩

theorem processFile_fail_lines (w : World) (cfg : Config) (f : String)
    (hf : tokenCount w f = none) :
    (∀ l ∈ (Main.processFile w cfg f).1, l.isSuccess = false ∧ l.viaFmt = false) ∧
    ((Main.processFile w cfg f).1.filter Line.isProcessError).length = 1 := by
  unfold tokenCount at hf
  unfold Main.processFile
  rcases h1 : w.readFile f with e | c
  · simp [Line.isSuccess, Line.viaFmt, Line.isProcessError]
  · rw [h1] at hf
    rcases h2 : w.getEncoding with e | tk
    · cases hd : cfg.debug <;> simp [Line.isSuccess, Line.viaFmt, Line.isProcessError]
    · rw [h2] at hf
      rcases h3 : tk c with e | n
      · cases hd : cfg.debug <;> simp [h3, Line.isSuccess, Line.viaFmt, Line.isProcessError]
      · simp [h3] at hf

theorem processFile_ok_lines (w : World) (cfg : Config) (f : String) (n : Nat)
    (hf : tokenCount w f = some n) :
    ∃ dbg : List Line, (∀ l ∈ dbg, ∃ c, l = Line.debugContent f c) ∧
      (Main.processFile w cfg f).1 = dbg ++ [Line.fileTks (cfg.logFile != "") f n] := by
  unfold tokenCount at hf
  unfold Main.processFile
  rcases h1 : w.readFile f with e | c
  · simp [h1] at hf
  · rw [h1] at hf
    rcases h2 : w.getEncoding with e | tk
    · simp [h2] at hf
    · rw [h2] at hf
      rcases h3 : tk c with e | m
      · simp [h3] at hf
      · simp only [h3, Option.some.injEq] at hf
        subst hf
        cases hd : cfg.debug
        · exact ⟨[], by simp, by simp [h3]⟩
        · exact ⟨[Line.debugContent f c], by simp, by simp [h3]⟩

/-- C8: when every argument fails to stat, is a directory skipped for want of
`--recursive`, or is a file that cannot be read or tokenized, `src/main.go` runs to its
end and its last two lines are the separator `__` and `Total token count: 0 tks`; nothing
else is written through `fmt.Printf`. -/
theorem zero_valid_files_prints_zero_total (w : World) (cfg : Config) (args : List String)
    (h : ∀ a ∈ args, (∃ e, w.stat a = StatResult.error e) ∨
      (∃ root, w.stat a = StatResult.dir root ∧ cfg.recursive = false) ∨
      (w.stat a = StatResult.file ∧ tokenCount w a = none)) :
    ∃ pre, (Main.run w cfg args).out = pre ++ [Line.separator, Line.total "0"] ∧
      (∀ l ∈ pre, l.isSuccess = false ∧ l.viaFmt = false) ∧
      Line.separator.text = "__\n" ∧
      (Line.total "0").text = "Total token count: 0 tks\n" ∧
      fmtOutput (Main.run w cfg args).out = "__\nTotal token count: 0 tks\n" := by
  have hfiles : ∀ f ∈ (discover w cfg.recursive args).1, tokenCount w f = none := by
    intro f hf
    rw [discover_eq] at hf
    obtain ⟨a, ha, hfa⟩ := List.mem_flatMap.1 hf
    rcases h a ha with ⟨e, he⟩ | ⟨root, hr, hrec⟩ | ⟨hs, ht⟩
    · simp [discoverArg, he] at hfa
    · simp [discoverArg, hr, hrec] at hfa
    · simp [discoverArg, hs] at hfa
      subst hfa
      exact ht
  have hlog : ∀ l ∈ (discover w cfg.recursive args).2, l.isSuccess = false ∧ l.viaFmt = false := by
    intro l hl
    rw [discover_eq] at hl
    obtain ⟨a, ha, hla⟩ := List.mem_flatMap.1 hl
    rcases h a ha with ⟨e, he⟩ | ⟨root, hr, hrec⟩ | ⟨hs, ht⟩
    · simp [discoverArg, he] at hla
      subst hla
      exact ⟨rfl, rfl⟩
    · simp [discoverArg, hr, hrec] at hla
      subst hla
      exact ⟨rfl, rfl⟩
    · simp [discoverArg, hs] at hla
  have hsum : successSum w (discover w cfg.recursive args).1 = 0 := by
    unfold successSum
    have : (discover w cfg.recursive args).1.filterMap (tokenCount w) = [] := by
      rw [List.filterMap_eq_nil_iff]
      exact hfiles
    rw [this]
    rfl
  have hpre : ∀ l ∈ (discover w cfg.recursive args).2 ++
      (discover w cfg.recursive args).1.flatMap (fun f => (Main.processFile w cfg f).1),
      l.isSuccess = false ∧ l.viaFmt = false := by
    intro l hl
    rcases List.mem_append.1 hl with hl | hl
    · exact hlog l hl
    · obtain ⟨f, hf, hlf⟩ := List.mem_flatMap.1 hl
      exact (processFile_fail_lines w cfg f (hfiles f hf)).1 l hlf
  have h0 : formatNumber (wrap64 0) = "0" := by decide
  have hout := run_out w cfg args
  rw [hsum, h0] at hout
  refine ⟨_, hout, hpre, by decide, by decide, ?_⟩
  rw [hout]
  unfold fmtOutput
  have hfil : ((discover w cfg.recursive args).2 ++
      (discover w cfg.recursive args).1.flatMap (fun f => (Main.processFile w cfg f).1)).filter
        Line.viaFmt = [] := by
    rw [List.filter_eq_nil_iff]
    intro l hl
    simp [(hpre l hl).2]
  rw [List.filter_append, hfil]
  decide

theorem zero_valid_files_prints_zero_total_witness :
    fmtOutput (Main.run demoWorld defaultConfig ["missing", "d", "zz"]).out =
      "__\nTotal token count: 0 tks\n" := by
  obtain ⟨_, _, _, _, _, h⟩ :=
    zero_valid_files_prints_zero_total demoWorld defaultConfig ["missing", "d", "zz"]
      (by
        intro a ha
        simp only [List.mem_cons, List.mem_singleton, List.not_mem_nil, or_false] at ha
        rcases ha with rfl | rfl | rfl
        · exact Or.inl ⟨_, rfl⟩
        · exact Or.inr (Or.inl ⟨_, rfl, rfl⟩)
        · exact Or.inr (Or.inr ⟨rfl, rfl⟩))
  exact h

theorem fileTks_mem_processFile (w : World) (cfg : Config) (a p : String) (b : Bool) (n : Nat)
    (h : Line.fileTks b p n ∈ (Main.processFile w cfg a).1) : a = p := by
  unfold Main.processFile at h
  rcases h1 : w.readFile a with e | c
  · simp [h1] at h
  · rcases h2 : w.getEncoding with e | tk
    · cases hd : cfg.debug <;> simp [h1, h2, hd] at h
    · rcases h3 : tk c with e | m
      · cases hd : cfg.debug <;> simp [h1, h2, h3, hd] at h
      · cases hd : cfg.debug <;> simp [h1, h2, h3, hd] at h <;> exact h.2.1.symm

theorem count_fileTks_flatMap (w : World) (cfg : Config) (p : String) (n : Nat)
    (hp : tokenCount w p = some n) (args : List String) :
    (args.flatMap (fun f => (Main.processFile w cfg f).1)).count
        (Line.fileTks (cfg.logFile != "") p n) = args.count p := by
  induction args with
  | nil => simp
  | cons a as ih =>
    rw [List.flatMap_cons, List.count_append, ih, List.count_cons]
    by_cases hap : a = p
    · subst hap
      obtain ⟨dbg, hdbg, hl⟩ := processFile_ok_lines w cfg a n hp
      have h0 : dbg.count (Line.fileTks (cfg.logFile != "") a n) = 0 := by
        rw [List.count_eq_zero]
        intro hmem
        obtain ⟨c, hc⟩ := hdbg _ hmem
        cases hc
      rw [hl, List.count_append, h0]
      simp
      omega
    · have h0 : (Main.processFile w cfg a).1.count (Line.fileTks (cfg.logFile != "") p n) = 0 := by
        rw [List.count_eq_zero]
        intro hmem
        exact hap (fileTks_mem_processFile w cfg a p _ n hmem)
      rw [h0]
      simp [hap]

theorem successSum_split (w : World) (p : String) (n : Nat) (hp : tokenCount w p = some n)
    (args : List String) :
    successSum w args =
      (args.count p : Int) * (n : Int) + successSum w (args.filter (fun a => a != p)) := by
  induction args with
  | nil => simp [successSum_nil]
  | cons a as ih =>
    by_cases hap : a = p
    · subst hap
      rw [successSum_cons, hp, ih]
      simp [List.count_cons]
      ring
    · rw [successSum_cons, ih]
      have hf : (a :: as).filter (fun a => a != p) = a :: as.filter (fun a => a != p) := by
        simp [List.filter_cons, hap]
      have hc : List.count p (a :: as) = List.count p as := by
        simp [List.count_cons, hap]
      rw [hf, successSum_cons, hc]
      ring

/-- C9: when every argument stats as a non-directory, the discovered list is the argument
list itself (same order, same multiplicity) and nothing is logged; so in `src/main.go` a
readable file given `k` times yields `k` copies of its per-file line and adds `k` times
its token count to the total. -/
theorem discovery_keeps_order_and_multiplicity (w : World) (cfg : Config)
    (args : List String) (hfiles : ∀ a ∈ args, w.stat a = StatResult.file) :
    discover w cfg.recursive args = (args, []) ∧
    ∀ (p : String) (n : Nat), tokenCount w p = some n →
      (Main.run w cfg args).out.count (Line.fileTks (cfg.logFile != "") p n) = args.count p ∧
      (Main.processLoop w cfg args).2 =
        wrap64 ((args.count p : Int) * (n : Int) +
          successSum w (args.filter (fun a => a != p))) ∧
      (Main.run w cfg args).out.getLast? =
        some (Line.total (formatNumber (wrap64 ((args.count p : Int) * (n : Int) +
          successSum w (args.filter (fun a => a != p)))))) := by
  have hd : discover w cfg.recursive args = (args, []) := by
    rw [discover_eq]
    have h1 : ∀ l : List String, (∀ a ∈ l, w.stat a = StatResult.file) →
        l.flatMap (fun a => (discoverArg w cfg.recursive a).1) = l ∧
        l.flatMap (fun a => (discoverArg w cfg.recursive a).2) = [] := by
      intro l
      induction l with
      | nil => intro _; simp
      | cons a as ih =>
        intro hl
        have ha := hl a (List.mem_cons_self _ _)
        have := ih (fun x hx => hl x (List.mem_cons_of_mem _ hx))
        have e1 : discoverArg w cfg.recursive a = ([a], []) := by
          simp [discoverArg, ha]
        rw [List.flatMap_cons, List.flatMap_cons, e1, this.1, this.2]
        simp
    rw [(h1 args hfiles).1, (h1 args hfiles).2]
  refine ⟨hd, ?_⟩
  intro p n hp
  have hout := run_out w cfg args
  rw [hd] at hout
  refine ⟨?_, ?_, ?_⟩
  · rw [hout]
    simp only [List.nil_append, List.count_append, count_fileTks_flatMap w cfg p n hp args]
    simp [List.count_cons]
  · rw [processLoop_eq, successSum_split w p n hp args]
  · rw [hout, successSum_split w p n hp args]
    simp

theorem discovery_keeps_order_and_multiplicity_witness :
    discover demoWorld defaultConfig.recursive ["a", "b", "a"] = (["a", "b", "a"], []) ∧
    (Main.run demoWorld defaultConfig ["a", "b", "a"]).out.count
        (Line.fileTks (defaultConfig.logFile != "") "a" 7) = 2 ∧
    (Main.processLoop demoWorld defaultConfig ["a", "b", "a"]).2 = 19 := by
  have h := discovery_keeps_order_and_multiplicity demoWorld defaultConfig ["a", "b", "a"]
    (by
      intro a ha
      simp only [List.mem_cons, List.mem_singleton, List.not_mem_nil, or_false] at ha
      rcases ha with rfl | rfl | rfl <;> rfl)
  refine ⟨h.1, ?_, ?_⟩
  · rw [(h.2 "a" 7 (by decide)).1]
    decide
  · rw [(h.2 "a" 7 (by decide)).2.1]
    decide

/-! ## Discovery -/

theorem walkEntries_noError (join : String → String → String) (es : Entries) :
    ∀ (path : String), es.noError = true →
      (walkEntries join path es).2.1 = [] ∧ (walkEntries join path es).2.2 = false ∧
      (walkEntries join path es).1.length = es.fileCount ∧
      (∀ route, es.IsFileAt route → route.foldl join path ∈ (walkEntries join path es).1) ∧
      (∀ p ∈ (walkEntries join path es).1, ∃ route, es.IsFileAt route ∧
        p = route.foldl join path) := by
  induction es with
  | nil =>
    intro path _
    refine ⟨rfl, rfl, rfl, ?_, ?_⟩
    · intro route h; cases h
    · intro p hp; simp [walkEntries] at hp
  | file name rest ih =>
    intro path h
    have hr : rest.noError = true := by simpa [Entries.noError] using h
    obtain ⟨h1, h2, h3, h4, h5⟩ := ih path hr
    refine ⟨by simp [walkEntries, h1], by simp [walkEntries, h2],
      by simp [walkEntries, h3, Entries.fileCount], ?_, ?_⟩
    · intro route hroute
      cases hroute with
      | here => simp [walkEntries]
      | afterFile _ h => simp [walkEntries, h4 _ h]
    · intro p hp
      simp only [walkEntries, List.mem_cons] at hp
      rcases hp with rfl | hp
      · exact ⟨[name], Entries.IsFileAt.here name rest, rfl⟩
      · obtain ⟨route, hr1, hr2⟩ := h5 p hp
        exact ⟨route, Entries.IsFileAt.afterFile name hr1, hr2⟩
  | bad name err rest _ =>
    intro path h
    simp [Entries.noError] at h
  | dir name readErr children rest ihc ihr =>
    intro path h
    cases readErr with
    | some e => simp [Entries.noError] at h
    | none =>
      have hc : children.noError = true ∧ rest.noError = true := by
        simpa [Entries.noError] using h
      obtain ⟨c1, c2, c3, c4, c5⟩ := ihc (join path name) hc.1
      obtain ⟨r1, r2, r3, r4, r5⟩ := ihr path hc.2
      have hw : walkEntries join path (Entries.dir name none children rest) =
          ((walkEntries join (join path name) children).1 ++ (walkEntries join path rest).1,
            [], false) := by
        simp [walkEntries, c1, c2, r1, r2]
      rw [hw]
      refine ⟨rfl, rfl, by simp [c3, r3, Entries.fileCount], ?_, ?_⟩
      · intro route hroute
        cases hroute with
        | afterDir _ _ _ h => exact List.mem_append_right _ (r4 _ h)
        | inDir _ _ _ h =>
          have := c4 _ h
          exact List.mem_append_left _ (by simpa using this)
      · intro p hp
        rcases List.mem_append.1 hp with hp | hp
        · obtain ⟨route, hr1, hr2⟩ := c5 p hp
          exact ⟨name :: route, Entries.IsFileAt.inDir name none rest hr1, by simpa using hr2⟩
        · obtain ⟨route, hr1, hr2⟩ := r5 p hp
          exact ⟨route, Entries.IsFileAt.afterDir name none children hr1, hr2⟩

theorem fileRoutes_head (es : Entries) :
    ∀ r ∈ es.fileRoutes, ∃ n t, r = n :: t ∧ n ∈ es.names := by
  induction es with
  | nil => intro r hr; simp [Entries.fileRoutes] at hr
  | file name rest ih =>
    intro r hr
    simp only [Entries.fileRoutes, List.mem_cons] at hr
    rcases hr with rfl | hr
    · exact ⟨name, [], rfl, by simp [Entries.names]⟩
    · obtain ⟨n, t, h1, h2⟩ := ih r hr
      exact ⟨n, t, h1, by simp [Entries.names, h2]⟩
  | bad name err rest ih =>
    intro r hr
    obtain ⟨n, t, h1, h2⟩ := ih r (by simpa [Entries.fileRoutes] using hr)
    exact ⟨n, t, h1, by simp [Entries.names, h2]⟩
  | dir name readErr children rest _ ihr =>
    intro r hr
    simp only [Entries.fileRoutes, List.mem_append, List.mem_map] at hr
    rcases hr with ⟨t, _, rfl⟩ | hr
    · exact ⟨name, t, rfl, by simp [Entries.names]⟩
    · obtain ⟨n, t, h1, h2⟩ := ihr r hr
      exact ⟨n, t, h1, by simp [Entries.names, h2]⟩

theorem fileRoutes_nodup (es : Entries) : es.distinctNames = true → es.fileRoutes.Nodup := by
  induction es with
  | nil => intro _; simp [Entries.fileRoutes]
  | file name rest ih =>
    intro h
    simp only [Entries.distinctNames, Bool.and_eq_true, decide_eq_true_eq] at h
    simp only [Entries.fileRoutes, List.nodup_cons]
    refine ⟨?_, ih h.2⟩
    intro hmem
    obtain ⟨n, t, h1, h2⟩ := fileRoutes_head rest _ hmem
    cases h1
    exact h.1 h2
  | bad name err rest ih =>
    intro h
    simp only [Entries.distinctNames, Bool.and_eq_true] at h
    exact ih h.2
  | dir name readErr children rest ihc ihr =>
    intro h
    simp only [Entries.distinctNames, Bool.and_eq_true, decide_eq_true_eq] at h
    simp only [Entries.fileRoutes]
    rw [List.nodup_append]
    refine ⟨(ihc h.1.2).map (fun a b hab => by simpa using hab), ihr h.2, ?_⟩
    intro r hr1 hr2
    obtain ⟨t, _, rfl⟩ := List.mem_map.1 hr1
    obtain ⟨n, t2, h1, h2⟩ := fileRoutes_head rest _ hr2
    cases h1
    exact h.1.1 h2

theorem mem_fileRoutes (es : Entries) : ∀ r, r ∈ es.fileRoutes ↔ es.IsFileAt r := by
  induction es with
  | nil =>
    intro r
    constructor
    · intro h; simp [Entries.fileRoutes] at h
    · intro h; cases h
  | file name rest ih =>
    intro r
    simp only [Entries.fileRoutes, List.mem_cons]
    constructor
    · rintro (rfl | h)
      · exact Entries.IsFileAt.here name rest
      · exact Entries.IsFileAt.afterFile name ((ih r).1 h)
    · intro h
      cases h with
      | here => exact Or.inl rfl
      | afterFile _ h => exact Or.inr ((ih r).2 h)
  | bad name err rest ih =>
    intro r
    simp only [Entries.fileRoutes]
    constructor
    · intro h; exact Entries.IsFileAt.afterBad name err ((ih r).1 h)
    · intro h
      cases h with
      | afterBad _ _ h => exact (ih r).2 h
  | dir name readErr children rest ihc ihr =>
    intro r
    simp only [Entries.fileRoutes, List.mem_append, List.mem_map]
    constructor
    · rintro (⟨t, ht, rfl⟩ | h)
      · exact Entries.IsFileAt.inDir name readErr rest ((ihc t).1 ht)
      · exact Entries.IsFileAt.afterDir name readErr children ((ihr r).1 h)
    · intro h
      cases h with
      | afterDir _ _ _ h => exact Or.inr ((ihr r).2 h)
      | inDir _ _ _ h => exact Or.inl ⟨_, (ihc _).2 h, rfl⟩

theorem walkEntries_routes (join : String → String → String) (es : Entries) :
    ∀ (path : String), es.noError = true →
      (walkEntries join path es).1 = es.fileRoutes.map (fun r => r.foldl join path) := by
  induction es with
  | nil => intro path _; rfl
  | file name rest ih =>
    intro path h
    have hr : rest.noError = true := by simpa [Entries.noError] using h
    simp [walkEntries, Entries.fileRoutes, ih path hr]
  | bad name err rest _ =>
    intro path h
    simp [Entries.noError] at h
  | dir name readErr children rest ihc ihr =>
    intro path h
    cases readErr with
    | some e => simp [Entries.noError] at h
    | none =>
      have hc : children.noError = true ∧ rest.noError = true := by
        simpa [Entries.noError] using h
      have c2 := (walkEntries_noError join children (join path name) hc.1).2.1
      simp [walkEntries, c2, Entries.fileRoutes, ihc (join path name) hc.1, ihr path hc.2,
        List.map_map, Function.comp_def]

theorem fileRoutes_length (es : Entries) : es.fileRoutes.length = es.fileCount := by
  induction es with
  | nil => rfl
  | file name rest ih => simp [Entries.fileRoutes, Entries.fileCount, ih]
  | bad name err rest ih => simp [Entries.fileRoutes, Entries.fileCount, ih]
  | dir name readErr children rest ihc ihr =>
    simp [Entries.fileRoutes, Entries.fileCount, ihc, ihr]

/-- C7: a directory argument adds no path and logs only the skip notice when `recursive`
is false. When `recursive` is true and the walk meets no access error, nothing is logged
and the paths added are the joined routes of the list `fileRoutes`, which holds exactly
the routes of the non-directory entries at any depth below the argument, has as many
elements as there are such entries, and has no repetition (names being distinct within
each directory): each such entry is added exactly once. The file list is the
concatenation of what each argument adds. -/
theorem discovery_of_directories (w : World) (arg : String) :
    (∀ root, w.stat arg = StatResult.dir root →
      discoverArg w false arg = ([], [Line.skipDir arg])) ∧
    (∀ children, w.stat arg = StatResult.dir (WalkRoot.dir none children) →
      children.noError = true →
        (discoverArg w true arg).2 = [] ∧
        (discoverArg w true arg).1 =
          children.fileRoutes.map (fun route => route.foldl w.join arg) ∧
        (∀ route, route ∈ children.fileRoutes ↔ children.IsFileAt route) ∧
        children.fileRoutes.length = children.fileCount ∧
        (children.distinctNames = true → children.fileRoutes.Nodup)) ∧
    (∀ (recursive : Bool) (before after : List String),
      discover w recursive (before ++ arg :: after) =
        ((discover w recursive before).1 ++ (discoverArg w recursive arg).1 ++
            (discover w recursive after).1,
          (discover w recursive before).2 ++ (discoverArg w recursive arg).2 ++
            (discover w recursive after).2)) := by
  refine ⟨?_, ?_, ?_⟩
  · intro root h
    simp [discoverArg, h]
  · intro children h hne
    obtain ⟨h1, _, _, _, _⟩ := walkEntries_noError w.join children arg hne
    have hd : discoverArg w true arg =
        ((walkEntries w.join arg children).1, (walkEntries w.join arg children).2.1) := by
      simp [discoverArg, h, walk]
    rw [hd]
    exact ⟨h1, walkEntries_routes w.join children arg hne, mem_fileRoutes children,
      fileRoutes_length children, fileRoutes_nodup children⟩
  · intro recursive before after
    simp [discover_eq, List.flatMap_append, List.flatMap_cons, List.append_assoc]

theorem discovery_of_directories_witness :
    discoverArg demoWorld false "d" = ([], [Line.skipDir "d"]) ∧
    (discoverArg demoWorld true "d").1 = ["d/x", "d/sub/y"] :=
  ⟨(discovery_of_directories demoWorld "d").1 _ rfl,
    ((discovery_of_directories demoWorld "d").2.1 _ rfl rfl).2.1.trans (by decide)⟩

/-! ## The worker pool of `src/token-counter/main.go` -/

theorem flatMap_set_shrink {α β : Type} (g : α → List β) (x : List β) :
    ∀ (ws : List α) (i : Nat) (a b : α), ws[i]? = some a → g a = x ++ g b →
      (ws.flatMap g).Perm (x ++ (ws.set i b).flatMap g) := by
  intro ws
  induction ws with
  | nil => intro i a b h; simp at h
  | cons y ys ih =>
    intro i a b h hg
    cases i with
    | zero =>
      simp only [List.getElem?_cons_zero, Option.some.injEq] at h
      subst h
      simp [List.flatMap_cons, hg, List.append_assoc]
    | succ j =>
      simp only [List.getElem?_cons_succ] at h
      have := ih j a b h hg
      simp only [List.set_cons_succ, List.flatMap_cons]
      exact (this.append_left (g y)).trans (List.perm_append_comm_assoc _ _ _)

theorem flatMap_set_grow {α β : Type} (g : α → List β) (x : List β) :
    ∀ (ws : List α) (i : Nat) (a b : α), ws[i]? = some a → g b = x ++ g a →
      ((ws.set i b).flatMap g).Perm (x ++ ws.flatMap g) := by
  intro ws
  induction ws with
  | nil => intro i a b h; simp at h
  | cons y ys ih =>
    intro i a b h hg
    cases i with
    | zero =>
      simp only [List.getElem?_cons_zero, Option.some.injEq] at h
      subst h
      simp [List.flatMap_cons, hg, List.append_assoc]
    | succ j =>
      simp only [List.getElem?_cons_succ] at h
      have := ih j a b h hg
      simp only [List.set_cons_succ, List.flatMap_cons]
      exact (this.append_left (g y)).trans (List.perm_append_comm_assoc _ _ _)

theorem sum_map_set {α : Type} (h : α → Nat) :
    ∀ (ws : List α) (i : Nat) (a b : α), ws[i]? = some a →
      ((ws.set i b).map h).sum + h a = (ws.map h).sum + h b := by
  intro ws
  induction ws with
  | nil => intro i a b hi; simp at hi
  | cons y ys ih =>
    intro i a b hi
    cases i with
    | zero =>
      simp only [List.getElem?_cons_zero, Option.some.injEq] at hi
      subst hi
      simp only [List.set_cons_zero, List.map_cons, List.sum_cons]
      omega
    | succ j =>
      simp only [List.getElem?_cons_succ] at hi
      have := ih j a b hi
      simp only [List.set_cons_succ, List.map_cons, List.sum_cons]
      omega

theorem step_cases (w : World) (cfg : Config) (s t : Pool.State) (i : Nat)
    (h : Pool.step w cfg s i = some t) :
    (∃ l rest, s.workers[i]? = some (Pool.Worker.running (l :: rest)) ∧
      t = { s with
        workers := s.workers.set i (Pool.Worker.running rest), out := s.out ++ [l] }) ∨
    (s.workers[i]? = some (Pool.Worker.running []) ∧ s.queue = [] ∧
      t = { s with workers := s.workers.set i Pool.Worker.exited }) ∨
    (∃ f q, s.workers[i]? = some (Pool.Worker.running []) ∧ s.queue = f :: q ∧
      t = { s with
        queue := q
        workers := s.workers.set i (Pool.Worker.running (Pool.processFile w cfg f))
        received := s.received ++ [(i, f)] }) := by
  unfold Pool.step at h
  rcases hw : s.workers[i]? with _ | wk
  · simp [hw] at h
  · cases wk with
    | exited => simp [hw] at h
    | running p =>
      cases p with
      | cons l rest =>
        simp only [hw, Option.some.injEq] at h
        exact Or.inl ⟨l, rest, rfl, h.symm⟩
      | nil =>
        rcases hq : s.queue with _ | ⟨f, q⟩
        · simp only [hw, hq, Option.some.injEq] at h
          exact Or.inr (Or.inl ⟨rfl, rfl, h.symm⟩)
        · simp only [hw, hq, Option.some.injEq] at h
          exact Or.inr (Or.inr ⟨f, q, rfl, rfl, h.symm⟩)

theorem pool_processFile_length (w : World) (cfg : Config) (f : String) :
    1 ≤ (Pool.processFile w cfg f).length ∧ (Pool.processFile w cfg f).length ≤ 2 := by
  unfold Pool.processFile
  rcases h1 : w.readFile f with e | c
  · simp
  · rcases h2 : w.getEncoding with e | tk
    · cases hd : cfg.debug <;> simp
    · rcases h3 : tk c with e | n <;> cases hd : cfg.debug <;> simp [h3]

theorem step_measure (w : World) (cfg : Config) (s t : Pool.State) (i : Nat)
    (h : Pool.step w cfg s i = some t) : Pool.measure t < Pool.measure s := by
  rcases step_cases w cfg s t i h with ⟨l, rest, hw, rfl⟩ | ⟨hw, hq, rfl⟩ | ⟨f, q, hw, hq, rfl⟩
  · have := sum_map_set Pool.Worker.weight s.workers i _ (Pool.Worker.running rest) hw
    simp only [Pool.measure, Pool.Worker.weight, List.length_cons] at this ⊢
    omega
  · have := sum_map_set Pool.Worker.weight s.workers i _ Pool.Worker.exited hw
    simp only [Pool.measure, Pool.Worker.weight, List.length_nil] at this ⊢
    omega
  · have := sum_map_set Pool.Worker.weight s.workers i _
      (Pool.Worker.running (Pool.processFile w cfg f)) hw
    have hl := (pool_processFile_length w cfg f).2
    simp only [Pool.measure, Pool.Worker.weight, List.length_nil, hq, List.length_cons]
      at this ⊢
    omega

theorem inv_init (w : World) (cfg : Config) (files : List String) (log : List Line)
    (threads : Int) :
    Pool.Inv w cfg files log threads.toNat (Pool.initFiles files threads log) := by
  refine ⟨by simp [Pool.initFiles], by simp [Pool.initFiles], by simp [Pool.initFiles],
    ?_, ?_⟩
  · intro h
    simp [Pool.initFiles, List.mem_replicate] at h
  · have hp : (List.replicate threads.toNat (Pool.Worker.running [])).flatMap
        Pool.Worker.pending = [] := by
      induction threads.toNat with
      | zero => rfl
      | succ k ih => simp [List.replicate_succ, List.flatMap_cons, Pool.Worker.pending, ih]
    simp [Pool.initFiles, hp]

theorem inv_step (w : World) (cfg : Config) (files : List String) (log : List Line) (n : Nat)
    (s t : Pool.State) (i : Nat) (hinv : Pool.Inv w cfg files log n s)
    (h : Pool.step w cfg s i = some t) : Pool.Inv w cfg files log n t := by
  obtain ⟨h1, h2, h3, h4, h5⟩ := hinv
  rcases step_cases w cfg s t i h with ⟨l, rest, hw, rfl⟩ | ⟨hw, hq, rfl⟩ | ⟨f, q, hw, hq, rfl⟩
  · refine ⟨h1, h2, by simpa using h3, ?_, ?_⟩
    · intro hmem
      rcases List.mem_or_eq_of_mem_set hmem with hm | hm
      · exact h4 hm
      · cases hm
    · have hp := flatMap_set_shrink Pool.Worker.pending [l] s.workers i _
        (Pool.Worker.running rest) hw (by simp [Pool.Worker.pending])
      refine List.Perm.trans ?_ h5
      simp only [List.append_assoc]
      refine List.Perm.append_left _ ?_
      have := (hp.append_right (s.queue.flatMap (Pool.processFile w cfg))).symm
      simpa [List.append_assoc] using this
  · refine ⟨h1, h2, by simpa using h3, fun _ => hq, ?_⟩
    have hp := flatMap_set_shrink Pool.Worker.pending [] s.workers i _
      Pool.Worker.exited hw (by simp [Pool.Worker.pending])
    refine List.Perm.trans ?_ h5
    simp only [List.append_assoc]
    refine List.Perm.append_left _ ?_
    have := (hp.append_right (s.queue.flatMap (Pool.processFile w cfg))).symm
    simpa [List.append_assoc] using this
  · refine ⟨?_, ?_, by simpa using h3, ?_, ?_⟩
    · rw [← h1, hq]
      simp
    · intro r hr
      rcases List.mem_append.1 hr with hr | hr
      · exact h2 r hr
      · simp only [List.mem_singleton] at hr
        subst hr
        obtain ⟨hlt, _⟩ := List.getElem?_eq_some.1 hw
        rw [← h3]
        exact hlt
    · intro hmem
      exfalso
      rcases List.mem_or_eq_of_mem_set hmem with hm | hm
      · have := h4 hm
        rw [hq] at this
        cases this
      · cases hm
    · have hp := flatMap_set_grow Pool.Worker.pending (Pool.processFile w cfg f) s.workers i _
        (Pool.Worker.running (Pool.processFile w cfg f)) hw (by simp [Pool.Worker.pending])
      refine List.Perm.trans ?_ h5
      rw [hq]
      simp only [List.append_assoc, List.flatMap_cons]
      refine List.Perm.append_left _ ?_
      have h6 := hp.append_right (q.flatMap (Pool.processFile w cfg))
      refine h6.trans ?_
      simp only [List.append_assoc]
      exact List.perm_append_comm_assoc _ _ _

theorem inv_reach (w : World) (cfg : Config) (files : List String) (log : List Line)
    (threads : Int) (k : Nat) (s : Pool.State)
    (hr : Pool.Reach w cfg k (Pool.initFiles files threads log) s) :
    Pool.Inv w cfg files log threads.toNat s ∧
      k + Pool.measure s ≤ Pool.measure (Pool.initFiles files threads log) := by
  generalize hs0 : Pool.initFiles files threads log = s0 at hr
  induction hr with
  | refl s =>
    subst hs0
    exact ⟨inv_init w cfg files log threads, by omega⟩
  | tail i _ hstep ih =>
    have := ih hs0
    refine ⟨inv_step w cfg files log _ _ _ i this.1 hstep, ?_⟩
    have hm := step_measure w cfg _ _ i hstep
    omega

theorem done_iff (s : Pool.State) :
    Pool.done s = true ↔ ∀ wk ∈ s.workers, wk = Pool.Worker.exited := by
  simp [Pool.done]

theorem firstRunning_none (ws : List Pool.Worker) :
    Pool.firstRunning ws = none ↔ ∀ wk ∈ ws, wk = Pool.Worker.exited := by
  induction ws with
  | nil => simp [Pool.firstRunning]
  | cons wk ws ih =>
    cases wk with
    | exited => simp [Pool.firstRunning, ih]
    | running p => simp [Pool.firstRunning]

theorem firstRunning_some (ws : List Pool.Worker) :
    ∀ i, Pool.firstRunning ws = some i → ∃ p, ws[i]? = some (Pool.Worker.running p) := by
  induction ws with
  | nil => intro i h; simp [Pool.firstRunning] at h
  | cons wk ws ih =>
    intro i h
    cases wk with
    | exited =>
      simp only [Pool.firstRunning, Option.map_eq_some'] at h
      obtain ⟨j, hj, rfl⟩ := h
      obtain ⟨p, hp⟩ := ih j hj
      exact ⟨p, by simpa using hp⟩
    | running p =>
      simp only [Pool.firstRunning, Option.some.injEq] at h
      subst h
      exact ⟨p, by simp⟩

theorem step_of_running (w : World) (cfg : Config) (s : Pool.State) (i : Nat)
    (p : List Line) (h : s.workers[i]? = some (Pool.Worker.running p)) :
    ∃ t, Pool.step w cfg s i = some t := by
  unfold Pool.step
  cases p with
  | cons l rest => simp [h]
  | nil =>
    rcases hq : s.queue with _ | ⟨f, q⟩ <;> simp [h]

theorem step_of_done (w : World) (cfg : Config) (s : Pool.State) (i : Nat)
    (h : Pool.done s = true) : Pool.step w cfg s i = none := by
  rw [done_iff] at h
  unfold Pool.step
  rcases hw : s.workers[i]? with _ | wk
  · rfl
  · have hmem : wk ∈ s.workers := List.mem_iff_getElem?.2 ⟨i, hw⟩
    have := h wk hmem
    subst this
    rfl

theorem progress (w : World) (cfg : Config) (s : Pool.State) (h : Pool.done s = false) :
    ∃ i t, Pool.step w cfg s i = some t := by
  rcases hf : Pool.firstRunning s.workers with _ | i
  · have := (firstRunning_none s.workers).1 hf
    rw [← done_iff] at this
    rw [this] at h
    cases h
  · obtain ⟨p, hp⟩ := firstRunning_some s.workers i hf
    obtain ⟨t, ht⟩ := step_of_running w cfg s i p hp
    exact ⟨i, t, ht⟩

theorem reach_head (w : World) (cfg : Config) (s t u : Pool.State) (i k : Nat)
    (hstep : Pool.step w cfg s i = some t) (hr : Pool.Reach w cfg k t u) :
    Pool.Reach w cfg (k + 1) s u := by
  induction hr with
  | refl t => exact Pool.Reach.tail i (Pool.Reach.refl s) hstep
  | tail j _ hs ih => exact Pool.Reach.tail j (ih hstep) hs

theorem exec_complete (w : World) (cfg : Config) :
    ∀ (fuel : Nat) (s : Pool.State), Pool.measure s ≤ fuel →
      Pool.done (Pool.exec w cfg fuel s) = true ∧
      ∃ k, Pool.Reach w cfg k s (Pool.exec w cfg fuel s) := by
  intro fuel
  induction fuel with
  | zero =>
    intro s hm
    simp only [Pool.exec]
    refine ⟨?_, 0, Pool.Reach.refl s⟩
    cases hd : Pool.done s with
    | true => rfl
    | false =>
      obtain ⟨i, t, ht⟩ := progress w cfg s hd
      have := step_measure w cfg s t i ht
      omega
  | succ fuel ih =>
    intro s hm
    simp only [Pool.exec]
    rcases hf : Pool.firstRunning s.workers with _ | i
    · refine ⟨?_, 0, Pool.Reach.refl s⟩
      rw [done_iff]
      exact (firstRunning_none s.workers).1 hf
    · obtain ⟨p, hp⟩ := firstRunning_some s.workers i hf
      obtain ⟨t, ht⟩ := step_of_running w cfg s i p hp
      have hlt := step_measure w cfg s t i ht
      obtain ⟨h1, k, h2⟩ := ih t (by omega)
      simp only [ht, Option.getD_some]
      exact ⟨h1, k + 1, reach_head w cfg s t _ i k ht h2⟩

theorem pending_of_done (s : Pool.State) (h : Pool.done s = true) :
    s.workers.flatMap Pool.Worker.pending = [] := by
  rw [done_iff] at h
  rw [List.flatMap_eq_nil_iff]
  intro wk hwk
  rw [h wk hwk]
  rfl

theorem pool_final (w : World) (cfg : Config) (files : List String) (log : List Line)
    (threads : Int) (hW : 1 ≤ threads) (k : Nat) (s : Pool.State)
    (hr : Pool.Reach w cfg k (Pool.initFiles files threads log) s)
    (hd : Pool.done s = true) :
    s.queue = [] ∧ s.received.map Prod.snd = files ∧
      s.out.Perm (log ++ files.flatMap (Pool.processFile w cfg)) := by
  obtain ⟨⟨h1, _, h3, h4, h5⟩, _⟩ := inv_reach w cfg files log threads k s hr
  have hne : s.workers ≠ [] := by
    intro h0
    rw [h0] at h3
    simp at h3
    omega
  obtain ⟨wk, hwk⟩ := List.exists_mem_of_ne_nil _ hne
  have hex : Pool.Worker.exited ∈ s.workers := by
    have := (done_iff s).1 hd wk hwk
    rwa [this] at hwk
  have hq := h4 hex
  rw [hq] at h1 h5
  rw [pending_of_done s hd] at h5
  refine ⟨hq, by simpa using h1, by simpa using h5⟩

theorem reach_runSchedule (w : World) (cfg : Config) (schedule : List Nat) :
    ∀ s : Pool.State, ∃ k, Pool.Reach w cfg k s (Pool.runSchedule w cfg s schedule) := by
  induction schedule with
  | nil => intro s; exact ⟨0, Pool.Reach.refl s⟩
  | cons i rest ih =>
    intro s
    rcases hs : Pool.step w cfg s i with _ | t
    · obtain ⟨k, hk⟩ := ih s
      exact ⟨k, by simpa [Pool.runSchedule, hs] using hk⟩
    · obtain ⟨k, hk⟩ := ih t
      refine ⟨k + 1, ?_⟩
      have := reach_head w cfg s t _ i k hs hk
      simpa [Pool.runSchedule, hs] using this

theorem flatMap_mark {β : Type} (y : β) (F : Nat → List β) (j : Nat) :
    ∀ l : List Nat, l.Nodup →
      (l.flatMap (fun i => if j = i then y :: F i else F i)).Perm
        ((if j ∈ l then [y] else []) ++ l.flatMap F) := by
  intro l
  induction l with
  | nil => intro _; simp
  | cons a as ih =>
    intro hnd
    have hnd2 := List.nodup_cons.1 hnd
    have h := ih hnd2.2
    by_cases hja : j = a
    · subst hja
      have hnot : j ∉ as := hnd2.1
      simp only [hnot, if_false, List.nil_append] at h
      simp only [List.flatMap_cons, if_true, List.mem_cons, true_or, List.singleton_append,
        List.cons_append]
      exact List.Perm.cons _ (h.append_left _)
    · have hmem : (j ∈ a :: as) ↔ j ∈ as := by simp [hja]
      simp only [List.flatMap_cons, hja, if_false, hmem]
      exact (h.append_left (F a)).trans (List.perm_append_comm_assoc _ _ _)

theorem receivedBy_union (n : Nat) :
    ∀ xs : List (Nat × String), (∀ r ∈ xs, r.1 < n) →
      ((List.range n).flatMap
        (fun i => (xs.filter (fun r => r.1 == i)).map Prod.snd)).Perm (xs.map Prod.snd) := by
  intro xs
  induction xs with
  | nil =>
    intro _
    have : (List.range n).flatMap (fun _ => ([] : List String)) = [] := by
      rw [List.flatMap_eq_nil_iff]; intro _ _; rfl
    simp
  | cons r xs ih =>
    intro h
    have hr := h r (List.mem_cons_self _ _)
    have h2 := ih (fun x hx => h x (List.mem_cons_of_mem _ hx))
    have hfun : (fun i => ((r :: xs).filter (fun x => x.1 == i)).map Prod.snd) =
        (fun i => if r.1 = i then r.2 :: (xs.filter (fun x => x.1 == i)).map Prod.snd
          else (xs.filter (fun x => x.1 == i)).map Prod.snd) := by
      funext i
      by_cases hi : r.1 = i <;> simp [List.filter_cons, hi]
    rw [hfun]
    have hm := flatMap_mark r.2 (fun i => (xs.filter (fun x => x.1 == i)).map Prod.snd) r.1
      (List.range n) (List.nodup_range n)
    have hin : r.1 ∈ List.range n := List.mem_range.2 hr
    simp only [hin, if_true] at hm
    exact hm.trans (by simpa using h2)

/-- C5: in the worker pool, under every interleaving, the paths received so far followed
by the paths still queued are the enqueued list, every receive is by one goroutine of the
pool, every interleaving is finite and can continue until all goroutines have returned,
and then the paths received, split by receiving goroutine, are the enqueued list as a
multiset: each path is delivered exactly once. -/
theorem every_path_received_exactly_once (w : World) (cfg : Config) (files : List String)
    (log : List Line) (threads : Int) (hW : 1 ≤ threads) (k : Nat) (s : Pool.State)
    (hr : Pool.Reach w cfg k (Pool.initFiles files threads log) s) :
    s.received.map Prod.snd ++ s.queue = files ∧
    (∀ r ∈ s.received, r.1 < threads.toNat) ∧
    k + Pool.measure s ≤ Pool.measure (Pool.initFiles files threads log) ∧
    (Pool.done s = false → ∃ i t, Pool.step w cfg s i = some t) ∧
    (Pool.done s = true →
      s.queue = [] ∧ s.received.map Prod.snd = files ∧
      ((List.range threads.toNat).flatMap (Pool.receivedBy s)).Perm files) ∧
    (Pool.done (Pool.exec w cfg (Pool.measure (Pool.initFiles files threads log))
        (Pool.initFiles files threads log)) = true ∧
      ∃ n, Pool.Reach w cfg n (Pool.initFiles files threads log)
        (Pool.exec w cfg (Pool.measure (Pool.initFiles files threads log))
          (Pool.initFiles files threads log))) := by
  obtain ⟨⟨h1, h2, h3, h4, h5⟩, hm⟩ := inv_reach w cfg files log threads k s hr
  refine ⟨h1, h2, hm, progress w cfg s, ?_, exec_complete w cfg _ _ (Nat.le_refl _)⟩
  intro hd
  obtain ⟨hq, hrec, _⟩ := pool_final w cfg files log threads hW k s hr hd
  refine ⟨hq, hrec, ?_⟩
  have := receivedBy_union threads.toNat s.received h2
  rw [hrec] at this
  exact this

theorem every_path_received_exactly_once_witness :
    (1 : Int) ≤ 2 ∧
    Pool.done (Pool.runSchedule demoWorld defaultConfig
      (Pool.initFiles ["a", "b", "zz"] 2 []) [0, 1, 1, 1, 0, 0, 1, 1]) = true ∧
    ((List.range (2 : Int).toNat).flatMap (Pool.receivedBy (Pool.runSchedule demoWorld
      defaultConfig (Pool.initFiles ["a", "b", "zz"] 2 []) [0, 1, 1, 1, 0, 0, 1, 1]))).Perm
      ["a", "b", "zz"] ∧
    Pool.receivedBy (Pool.runSchedule demoWorld defaultConfig
      (Pool.initFiles ["a", "b", "zz"] 2 []) [0, 1, 1, 1, 0, 0, 1, 1]) 1 = ["b", "zz"] := by
  obtain ⟨k, hk⟩ := reach_runSchedule demoWorld defaultConfig [0, 1, 1, 1, 0, 0, 1, 1]
    (Pool.initFiles ["a", "b", "zz"] 2 [])
  have h := every_path_received_exactly_once demoWorld defaultConfig ["a", "b", "zz"] [] 2
    (by decide) k _ hk
  exact ⟨by decide, by decide, (h.2.2.2.2.1 (by decide)).2.2, by decide⟩

theorem walkEntries_log (join : String → String → String) (es : Entries) :
    ∀ (path : String), ∀ l ∈ (walkEntries join path es).2.1, ∃ p e, l = Line.errAccess p e := by
  induction es with
  | nil => intro path l hl; simp [walkEntries] at hl
  | file name rest ih =>
    intro path l hl
    exact ih path l (by simpa [walkEntries] using hl)
  | bad name err rest _ =>
    intro path l hl
    simp only [walkEntries, List.mem_singleton] at hl
    exact ⟨_, _, hl⟩
  | dir name readErr children rest ihc ihr =>
    intro path l hl
    cases readErr with
    | some e =>
      simp only [walkEntries, List.mem_singleton] at hl
      exact ⟨_, _, hl⟩
    | none =>
      simp only [walkEntries] at hl
      split at hl
      · exact ihc _ l hl
      · rcases List.mem_append.1 hl with h | h
        · exact ihc _ l h
        · exact ihr _ l h

theorem discover_log_lines (w : World) (r : Bool) (args : List String) :
    ∀ l ∈ (discover w r args).2,
      l.isFinal = false ∧ l.isSuccess = false ∧ l.isProcessError = false ∧
        l.viaFmt = false := by
  intro l hl
  rw [discover_eq] at hl
  obtain ⟨a, _, hla⟩ := List.mem_flatMap.1 hl
  unfold discoverArg at hla
  rcases hs : w.stat a with e | _ | root
  · simp only [hs, List.mem_singleton] at hla
    subst hla
    exact ⟨rfl, rfl, rfl, rfl⟩
  · simp [hs] at hla
  · cases r with
    | false =>
      simp only [hs, Bool.false_eq_true, if_false, List.mem_singleton] at hla
      subst hla
      exact ⟨rfl, rfl, rfl, rfl⟩
    | true =>
      simp only [hs, if_true] at hla
      have hacc : ∃ p e, l = Line.errAccess p e := by
        cases root with
        | bad e => simp only [walk, List.mem_singleton] at hla; exact ⟨_, _, hla⟩
        | file => simp [walk] at hla
        | dir readErr children =>
          cases readErr with
          | some e => simp only [walk, List.mem_singleton] at hla; exact ⟨_, _, hla⟩
          | none => exact walkEntries_log w.join children a l (by simpa [walk] using hla)
      obtain ⟨p, e, rfl⟩ := hacc
      exact ⟨rfl, rfl, rfl, rfl⟩

theorem pool_processFile_fail_lines (w : World) (cfg : Config) (f : String)
    (hf : tokenCount w f = none) :
    (Pool.processFile w cfg f).filter Line.isSuccess = [] ∧
    ((Pool.processFile w cfg f).filter Line.isProcessError).length = 1 := by
  unfold tokenCount at hf
  unfold Pool.processFile
  rcases h1 : w.readFile f with e | c
  · simp [Line.isSuccess, Line.isProcessError]
  · rw [h1] at hf
    rcases h2 : w.getEncoding with e | tk
    · cases hd : cfg.debug <;> simp [Line.isSuccess, Line.isProcessError]
    · rw [h2] at hf
      rcases h3 : tk c with e | n
      · cases hd : cfg.debug <;> simp [h3, Line.isSuccess, Line.isProcessError]
      · simp [h3] at hf

theorem pool_processFile_ok_lines (w : World) (cfg : Config) (f : String) (n : Nat)
    (hf : tokenCount w f = some n) :
    (Pool.processFile w cfg f).filter Line.isSuccess =
      [Line.fileTokenCount (cfg.logFile != "") f n] ∧
    (Pool.processFile w cfg f).filter Line.isProcessError = [] := by
  unfold tokenCount at hf
  unfold Pool.processFile
  rcases h1 : w.readFile f with e | c
  · simp [h1] at hf
  · rw [h1] at hf
    rcases h2 : w.getEncoding with e | tk
    · simp [h2] at hf
    · rw [h2] at hf
      rcases h3 : tk c with e | m
      · simp [h3] at hf
      · simp only [h3, Option.some.injEq] at hf
        subst hf
        cases hd : cfg.debug <;> simp [h3, Line.isSuccess, Line.isProcessError]

theorem main_processFile_filters (w : World) (cfg : Config) (f : String) :
    (Main.processFile w cfg f).1.filter Line.isSuccess =
      (match tokenCount w f with
        | some n => [Line.fileTks (cfg.logFile != "") f n]
        | none => []) ∧
    ((Main.processFile w cfg f).1.filter Line.isProcessError).length =
      (if succeeds w f then 0 else 1) := by
  unfold succeeds
  rcases hf : tokenCount w f with _ | n
  · obtain ⟨h1, h2⟩ := processFile_fail_lines w cfg f hf
    refine ⟨?_, by simpa using h2⟩
    rw [List.filter_eq_nil_iff]
    intro l hl
    simp [(h1 l hl).1]
  · obtain ⟨dbg, hdbg, hl⟩ := processFile_ok_lines w cfg f n hf
    have h1 : dbg.filter Line.isSuccess = [] := by
      rw [List.filter_eq_nil_iff]
      intro l hl
      obtain ⟨c, rfl⟩ := hdbg l hl
      simp [Line.isSuccess]
    have h2 : dbg.filter Line.isProcessError = [] := by
      rw [List.filter_eq_nil_iff]
      intro l hl
      obtain ⟨c, rfl⟩ := hdbg l hl
      simp [Line.isProcessError]
    rw [hl, List.filter_append, List.filter_append, h1, h2]
    simp [Line.isSuccess, Line.isProcessError]

theorem pool_processFile_filters (w : World) (cfg : Config) (f : String) :
    (Pool.processFile w cfg f).filter Line.isSuccess =
      (match tokenCount w f with
        | some n => [Line.fileTokenCount (cfg.logFile != "") f n]
        | none => []) ∧
    ((Pool.processFile w cfg f).filter Line.isProcessError).length =
      (if succeeds w f then 0 else 1) := by
  unfold succeeds
  rcases hf : tokenCount w f with _ | n
  · obtain ⟨h1, h2⟩ := pool_processFile_fail_lines w cfg f hf
    exact ⟨h1, by simpa using h2⟩
  · obtain ⟨h1, h2⟩ := pool_processFile_ok_lines w cfg f n hf
    exact ⟨h1, by simp [h2]⟩

theorem filter_flatMap_of_fail {α β : Type} (g : α → List β) (p : β → Bool) (q : α → Bool)
    (h : ∀ x, q x = false → (g x).filter p = []) (l : List α) :
    (l.flatMap g).filter p = ((l.filter q).flatMap g).filter p := by
  induction l with
  | nil => rfl
  | cons x xs ih =>
    cases hq : q x with
    | false =>
      rw [List.flatMap_cons, List.filter_append, h x hq, ih]
      simp [List.filter_cons, hq]
    | true =>
      rw [List.flatMap_cons, List.filter_append, ih]
      simp [List.filter_cons, hq, List.flatMap_cons, List.filter_append]

theorem length_filter_flatMap {α β : Type} (g : α → List β) (p : β → Bool) (q : α → Bool)
    (h : ∀ x, ((g x).filter p).length = if q x then 0 else 1) (l : List α) :
    ((l.flatMap g).filter p).length = (l.filter (fun x => !q x)).length := by
  induction l with
  | nil => rfl
  | cons x xs ih =>
    rw [List.flatMap_cons, List.filter_append, List.length_append, h x, ih]
    cases hq : q x <;> simp [List.filter_cons, hq]
    omega

theorem successSum_filter (w : World) (files : List String) :
    successSum w (files.filter (succeeds w)) = successSum w files := by
  induction files with
  | nil => rfl
  | cons f fs ih =>
    rcases hf : tokenCount w f with _ | n
    · have hs : succeeds w f = false := by simp [succeeds, hf]
      rw [List.filter_cons_of_neg (by simp [hs]), successSum_cons, hf, ih]
      simp
    · have hs : succeeds w f = true := by simp [succeeds, hf]
      rw [List.filter_cons_of_pos hs, successSum_cons, successSum_cons, hf, ih]

/-- C2: per-file failures are isolated. In `src/main.go` the lines written are the
concatenation, in list order, of the lines of each file; a failing file yields exactly one
error line and no success line; the success lines and the total are those obtained on the
list with the failing files removed; there is one error line per failing file. In the
worker pool (which prints no total), under every interleaving that runs to the end, the
same holds with the success lines compared as multisets. -/
theorem failures_are_isolated (w : World) (cfg : Config) (files : List String)
    (threads threads2 : Int) (hW : 1 ≤ threads) (hW2 : 1 ≤ threads2) (k k2 : Nat)
    (s s2 : Pool.State)
    (hr : Pool.Reach w cfg k (Pool.initFiles files threads []) s)
    (hd : Pool.done s = true)
    (hr2 : Pool.Reach w cfg k2
      (Pool.initFiles (files.filter (succeeds w)) threads2 []) s2)
    (hd2 : Pool.done s2 = true) :
    ((Main.processLoop w cfg files).1 = files.flatMap (fun f => (Main.processFile w cfg f).1) ∧
      (∀ f, succeeds w f = false →
        ((Main.processFile w cfg f).1.filter Line.isProcessError).length = 1 ∧
        (Main.processFile w cfg f).1.filter Line.isSuccess = []) ∧
      (Main.processLoop w cfg files).1.filter Line.isSuccess =
        (Main.processLoop w cfg (files.filter (succeeds w))).1.filter Line.isSuccess ∧
      (Main.processLoop w cfg files).2 =
        (Main.processLoop w cfg (files.filter (succeeds w))).2 ∧
      ((Main.processLoop w cfg files).1.filter Line.isProcessError).length =
        (files.filter (fun f => !succeeds w f)).length) ∧
    ((∀ f, succeeds w f = false →
        ((Pool.processFile w cfg f).filter Line.isProcessError).length = 1 ∧
        (Pool.processFile w cfg f).filter Line.isSuccess = []) ∧
      (s.out.filter Line.isSuccess).Perm (s2.out.filter Line.isSuccess) ∧
      (s.out.filter Line.isProcessError).length =
        (files.filter (fun f => !succeeds w f)).length) := by
  have hmain : ∀ f, succeeds w f = false →
      (Main.processFile w cfg f).1.filter Line.isSuccess = [] := by
    intro f hf
    have := (main_processFile_filters w cfg f).1
    rcases ht : tokenCount w f with _ | n
    · rw [ht] at this; exact this
    · simp [succeeds, ht] at hf
  have hpool : ∀ f, succeeds w f = false →
      (Pool.processFile w cfg f).filter Line.isSuccess = [] := by
    intro f hf
    have := (pool_processFile_filters w cfg f).1
    rcases ht : tokenCount w f with _ | n
    · rw [ht] at this; exact this
    · simp [succeeds, ht] at hf
  refine ⟨⟨by rw [processLoop_eq], ?_, ?_, ?_, ?_⟩, ?_, ?_, ?_⟩
  · intro f hf
    have := (main_processFile_filters w cfg f).2
    rw [hf] at this
    exact ⟨by simpa using this, hmain f hf⟩
  · rw [processLoop_eq, processLoop_eq]
    exact filter_flatMap_of_fail _ _ (succeeds w) hmain files
  · rw [processLoop_eq, processLoop_eq, successSum_filter]
  · rw [processLoop_eq]
    exact length_filter_flatMap _ _ (succeeds w)
      (fun f => (main_processFile_filters w cfg f).2) files
  · intro f hf
    have := (pool_processFile_filters w cfg f).2
    rw [hf] at this
    exact ⟨by simpa using this, hpool f hf⟩
  · obtain ⟨_, _, h1⟩ := pool_final w cfg files [] threads hW k s hr hd
    obtain ⟨_, _, h2⟩ := pool_final w cfg _ [] threads2 hW2 k2 s2 hr2 hd2
    simp only [List.nil_append] at h1 h2
    have e := filter_flatMap_of_fail (Pool.processFile w cfg) Line.isSuccess (succeeds w)
      hpool files
    exact ((h1.filter _).trans (by rw [e])).trans (h2.filter _).symm
  · obtain ⟨_, _, h1⟩ := pool_final w cfg files [] threads hW k s hr hd
    simp only [List.nil_append] at h1
    rw [(h1.filter _).length_eq]
    exact length_filter_flatMap _ _ (succeeds w)
      (fun f => (pool_processFile_filters w cfg f).2) files

theorem failures_are_isolated_witness :
    ((Pool.runSchedule demoWorld defaultConfig (Pool.initFiles ["a", "zz", "b"] 2 [])
        [0, 1, 1, 1, 0, 0, 1, 1]).out.filter Line.isSuccess).Perm
      ((Pool.runSchedule demoWorld defaultConfig
        (Pool.initFiles (["a", "zz", "b"].filter (succeeds demoWorld)) 1 [])
        [0, 0, 0, 0, 0]).out.filter Line.isSuccess) ∧
    (Main.processLoop demoWorld defaultConfig ["a", "zz", "b"]).2 =
      (Main.processLoop demoWorld defaultConfig
        (["a", "zz", "b"].filter (succeeds demoWorld))).2 ∧
    (Main.processLoop demoWorld defaultConfig ["a", "zz", "b"]).1 =
      [Line.fileTks false "a" 7, Line.errRead "zz" "permission denied",
        Line.fileTks false "b" 5] := by
  obtain ⟨k, hk⟩ := reach_runSchedule demoWorld defaultConfig [0, 1, 1, 1, 0, 0, 1, 1]
    (Pool.initFiles ["a", "zz", "b"] 2 [])
  obtain ⟨k2, hk2⟩ := reach_runSchedule demoWorld defaultConfig [0, 0, 0, 0, 0]
    (Pool.initFiles (["a", "zz", "b"].filter (succeeds demoWorld)) 1 [])
  have h := failures_are_isolated demoWorld defaultConfig ["a", "zz", "b"] 2 1
    (by decide) (by decide) k k2 _ _ hk (by decide) hk2 (by decide)
  exact ⟨h.2.2.1, h.1.2.2.2.1, by decide⟩

theorem main_processFile_not_final (w : World) (cfg : Config) (f : String) :
    ∀ l ∈ (Main.processFile w cfg f).1, l.isFinal = false := by
  unfold Main.processFile
  rcases h1 : w.readFile f with e | c
  · simp [Line.isFinal]
  · rcases h2 : w.getEncoding with e | tk
    · cases hd : cfg.debug <;> simp [Line.isFinal]
    · rcases h3 : tk c with e | n <;> cases hd : cfg.debug <;> simp [h3, Line.isFinal]

theorem pool_processFile_not_final (w : World) (cfg : Config) (f : String) :
    ∀ l ∈ Pool.processFile w cfg f, l.isFinal = false := by
  unfold Pool.processFile
  rcases h1 : w.readFile f with e | c
  · simp [Line.isFinal]
  · rcases h2 : w.getEncoding with e | tk
    · cases hd : cfg.debug <;> simp [Line.isFinal]
    · rcases h3 : tk c with e | n <;> cases hd : cfg.debug <;> simp [h3, Line.isFinal]

theorem normThreads_pos (numCPU threads : Int) (h : 1 ≤ numCPU) :
    1 ≤ normThreads numCPU threads := by
  unfold normThreads
  split <;> omega

theorem pool_output_of_done (w : World) (cfg : Config) (args : List String)
    (hcpu : 1 ≤ w.numCPU) (k : Nat) (s : Pool.State)
    (hr : Pool.Reach w cfg k (Pool.init w cfg args) s) (hd : Pool.done s = true) :
    s.out.Perm ((discover w cfg.recursive args).2 ++
      (discover w cfg.recursive args).1.flatMap (Pool.processFile w cfg)) := by
  have hr2 : Pool.Reach w cfg k (Pool.initFiles (discover w cfg.recursive args).1
      (normThreads w.numCPU cfg.threads) (discover w cfg.recursive args).2) s := hr
  exact (pool_final w cfg _ _ _ (normThreads_pos _ _ hcpu) k s hr2 hd).2.2

/-- C4 as stated fails: on one readable file the worker pool runs to the end, its whole
output is the per-file line, and that output does not end with the separator and a total
line. -/
theorem pool_prints_total_counterexample :
    Pool.done (Pool.exec demoWorld defaultConfig
      (Pool.measure (Pool.init demoWorld defaultConfig ["a"]))
      (Pool.init demoWorld defaultConfig ["a"])) = true ∧
    (Pool.exec demoWorld defaultConfig
      (Pool.measure (Pool.init demoWorld defaultConfig ["a"]))
      (Pool.init demoWorld defaultConfig ["a"])).out = [Line.fileTokenCount false "a" 7] ∧
    ¬ ∃ (pre : List Line) (n : Int), (Pool.exec demoWorld defaultConfig
      (Pool.measure (Pool.init demoWorld defaultConfig ["a"]))
      (Pool.init demoWorld defaultConfig ["a"])).out =
        pre ++ [Line.separator, Line.total (formatNumber n)] := by
  have hout : (Pool.exec demoWorld defaultConfig
      (Pool.measure (Pool.init demoWorld defaultConfig ["a"]))
      (Pool.init demoWorld defaultConfig ["a"])).out = [Line.fileTokenCount false "a" 7] := by
    decide
  refine ⟨by decide, hout, ?_⟩
  rintro ⟨pre, n, h⟩
  rw [hout] at h
  have := congrArg List.length h
  simp at this

/-- C4 amended: the worker pool never writes the separator or a total line; once all
goroutines have returned its output is, up to order, the discovery log and the lines of
each discovered file. The separator followed by the total line, for the sum over the
successfully tokenized files, ends the output of `src/main.go` and occurs nowhere before. -/
theorem pool_prints_per_file_lines_only (w : World) (cfg : Config) (args : List String)
    (hcpu : 1 ≤ w.numCPU) (k : Nat) (s : Pool.State)
    (hr : Pool.Reach w cfg k (Pool.init w cfg args) s) :
    (∀ l ∈ s.out, l.isFinal = false) ∧
    (Pool.done s = true →
      s.out.Perm ((discover w cfg.recursive args).2 ++
        (discover w cfg.recursive args).1.flatMap (Pool.processFile w cfg))) ∧
    (∃ pre, (Main.run w cfg args).out = pre ++ [Line.separator,
        Line.total (formatNumber (wrap64 (successSum w (discover w cfg.recursive args).1)))] ∧
      ∀ l ∈ pre, l.isFinal = false) := by
  have hr2 : Pool.Reach w cfg k (Pool.initFiles (discover w cfg.recursive args).1
      (normThreads w.numCPU cfg.threads) (discover w cfg.recursive args).2) s := hr
  have hall : ∀ l ∈ (discover w cfg.recursive args).2 ++
      (discover w cfg.recursive args).1.flatMap (Pool.processFile w cfg),
      l.isFinal = false := by
    intro l hl
    rcases List.mem_append.1 hl with hl | hl
    · exact (discover_log_lines w cfg.recursive args l hl).1
    · obtain ⟨f, _, hf⟩ := List.mem_flatMap.1 hl
      exact pool_processFile_not_final w cfg f l hf
  refine ⟨?_, ?_, ?_⟩
  · intro l hl
    obtain ⟨⟨_, _, _, _, h5⟩, _⟩ := inv_reach w cfg _ _ _ k s hr2
    apply hall l
    apply h5.subset
    simp [hl]
  · intro hd
    exact (pool_final w cfg _ _ _ (normThreads_pos _ _ hcpu) k s hr2 hd).2.2
  · refine ⟨_, run_out w cfg args, ?_⟩
    intro l hl
    rcases List.mem_append.1 hl with hl | hl
    · exact (discover_log_lines w cfg.recursive args l hl).1
    · obtain ⟨f, _, hf⟩ := List.mem_flatMap.1 hl
      exact main_processFile_not_final w cfg f l hf

theorem pool_prints_per_file_lines_only_witness :
    (1 : Int) ≤ demoWorld.numCPU ∧
    (Pool.runSchedule demoWorld defaultConfig
      (Pool.init demoWorld defaultConfig ["a", "missing", "zz"])
      [0, 3, 0, 3, 0, 1, 2, 3]).out.Perm
      ((discover demoWorld defaultConfig.recursive ["a", "missing", "zz"]).2 ++
        (discover demoWorld defaultConfig.recursive ["a", "missing", "zz"]).1.flatMap
          (Pool.processFile demoWorld defaultConfig)) := by
  obtain ⟨k, hk⟩ := reach_runSchedule demoWorld defaultConfig [0, 3, 0, 3, 0, 1, 2, 3]
    (Pool.init demoWorld defaultConfig ["a", "missing", "zz"])
  exact ⟨by decide,
    (pool_prints_per_file_lines_only demoWorld defaultConfig ["a", "missing", "zz"]
      (by decide) k _ hk).2.1 (by decide)⟩

/-- C6: two runs that differ only in the `--threads` value (non-positive values being
replaced by the CPU count) give, in `src/main.go`, the same lines and the same total, and
in the worker pool, for any two interleavings that run to the end, the same lines up to
order, in particular the same per-file token counts. -/
theorem threads_do_not_change_results (w : World) (cfg : Config) (args : List String)
    (t1 t2 : Int) (hcpu : 1 ≤ w.numCPU) (k1 k2 : Nat) (s1 s2 : Pool.State)
    (hr1 : Pool.Reach w { cfg with threads := t1 } k1
      (Pool.init w { cfg with threads := t1 } args) s1)
    (hd1 : Pool.done s1 = true)
    (hr2 : Pool.Reach w { cfg with threads := t2 } k2
      (Pool.init w { cfg with threads := t2 } args) s2)
    (hd2 : Pool.done s2 = true) :
    (Main.run w { cfg with threads := t1 } args).out =
      (Main.run w { cfg with threads := t2 } args).out ∧
    s1.out.Perm s2.out ∧
    (s1.out.filter Line.isSuccess).Perm (s2.out.filter Line.isSuccess) := by
  have h1 := (pool_output_of_done w { cfg with threads := t1 } args hcpu
    k1 s1 hr1 hd1)
  have h2 := (pool_output_of_done w { cfg with threads := t2 } args hcpu
    k2 s2 hr2 hd2)
  have hp : s1.out.Perm s2.out := h1.trans h2.symm
  exact ⟨rfl, hp, hp.filter _⟩

theorem threads_do_not_change_results_witness :
    (Main.run demoWorld { defaultConfig with threads := 1 } ["a", "b"]).out =
      (Main.run demoWorld { defaultConfig with threads := -3 } ["a", "b"]).out ∧
    (Pool.runSchedule demoWorld { defaultConfig with threads := 1 }
        (Pool.init demoWorld { defaultConfig with threads := 1 } ["a", "b"])
        [0, 0, 0, 0, 0]).out.Perm
      (Pool.runSchedule demoWorld { defaultConfig with threads := -3 }
        (Pool.init demoWorld { defaultConfig with threads := -3 } ["a", "b"])
        [2, 0, 0, 2, 0, 1, 2, 3]).out ∧
    (Pool.runSchedule demoWorld { defaultConfig with threads := -3 }
        (Pool.init demoWorld { defaultConfig with threads := -3 } ["a", "b"])
        [2, 0, 0, 2, 0, 1, 2, 3]).out =
      [Line.fileTokenCount false "b" 5, Line.fileTokenCount false "a" 7] := by
  obtain ⟨k1, hk1⟩ := reach_runSchedule demoWorld { defaultConfig with threads := 1 }
    [0, 0, 0, 0, 0] (Pool.init demoWorld { defaultConfig with threads := 1 } ["a", "b"])
  obtain ⟨k2, hk2⟩ := reach_runSchedule demoWorld { defaultConfig with threads := -3 }
    [2, 0, 0, 2, 0, 1, 2, 3]
    (Pool.init demoWorld { defaultConfig with threads := -3 } ["a", "b"])
  have h := threads_do_not_change_results demoWorld defaultConfig ["a", "b"] 1 (-3)
    (by decide) k1 k2 _ _ hk1 (by decide) hk2 (by decide)
  exact ⟨h.1, h.2.1, by decide⟩

theorem formatNumber_sign_is_a_position_witness :
    (formatNumber (-100000)).data.take 2 = ['-', ' '] := by
  obtain ⟨t, ht⟩ :=
    formatNumber_sign_is_a_position.1 (-100000) (by decide) (by norm_num) (by norm_num)
  rw [ht]
  rfl

end TokenCount
